import Mathlib

/-!
# fgprof: the output encodings of `format.go`

A shallow embedding of `writeFormat`, `writeFolded`, `toPprof` and `sortedKeys`
together with the parts of the Go standard library they call
(`sort.Strings`, `strings.Split`, `strings.SplitN`, `strconv.ParseInt`, the
`%d` verb of `fmt`), followed by theorems about them.

Conventions of the embedding.

* A Go `string` is its sequence of bytes, `List Nat`.
* A Go `map[string]int` is an enumeration of its entries, a list of
  `(key, count)` pairs; the order of the list is the (unspecified) iteration
  order of the map.  A list is a map when its keys are pairwise distinct
  (`Aggregate.WF`).
* `int` and `int64` are 64 bits wide and are carried as `Int`; `uint64` is
  carried as `Nat`.  Operations that can overflow wrap explicitly.
* A run-time panic is a value of `Panic`; an `error` is a value of `Error`.
* The sink (`io.Writer`), the serializer `(*profile.Profile).Write` and the two
  methods of `time.Time` that are used are collaborators outside `format.go`;
  they are parameters of the embedding (`Env`).
-/

set_option linter.dupNamespace false

namespace Fgprof

/-! ## Strings -/

/-- A Go string, as its bytes. -/
abbrev GoString := List Nat

/-- The bytes of an ASCII literal. -/
def ascii (s : String) : GoString := s.toList.map Char.toNat

/-- Go's `a < b` on strings: byte-wise lexicographic comparison, a proper
prefix being smaller. -/
def strLess : GoString → GoString → Bool
  | [], [] => false
  | [], _ :: _ => true
  | _ :: _, [] => false
  | a :: as, b :: bs =>
    if a < b then true else if b < a then false else strLess as bs

/-- The order `sort.Strings` sorts by, `a ≤ b` as "not `b < a`". -/
def strLE (a b : GoString) : Prop := strLess b a = false

instance strLE.decidable : DecidableRel strLE := fun a b =>
  inferInstanceAs (Decidable (strLess b a = false))

/-- Go's `sort.Strings`: the slice in increasing order.  Equal strings are
indistinguishable, so every sorting algorithm gives the same result; insertion
sort stands for the library's. -/
def sortStrings (keys : List GoString) : List GoString :=
  List.insertionSort strLE keys

/-- Go's `strings.Split(s, sep)` for a one-byte separator: the substrings
between the separators, one more than there are separators. -/
def Split : GoString → Nat → List GoString
  | [], _ => [[]]
  | c :: cs, sep =>
    if c = sep then [] :: Split cs sep
    else
      match Split cs sep with
      | [] => [[c]]
      | t :: ts => (c :: t) :: ts

/-- Go's `strings.Cut(s, sep)` for a one-byte separator: the text before and
after the first separator, if there is one. -/
def cut : GoString → Nat → Option (GoString × GoString)
  | [], _ => none
  | c :: cs, sep =>
    if c = sep then some ([], cs)
    else
      match cut cs sep with
      | none => none
      | some (a, b) => some (c :: a, b)

/-- Go's `strings.SplitN(s, sep, n)` for a one-byte separator and `n ≥ 0`: at
most `n` substrings, the last one being the unsplit remainder. -/
def SplitN (s : GoString) (sep : Nat) : Nat → List GoString
  | 0 => []
  | 1 => [s]
  | n + 2 =>
    match cut s sep with
    | none => [s]
    | some (a, b) => a :: SplitN b sep (n + 1)

/-! ## Integers -/

/-- Reduction of an integer to the 64-bit two's complement range. -/
def wrap64 (x : Int) : Int := (x + 2 ^ 63) % 2 ^ 64 - 2 ^ 63

/-- The increment `id++` of a `uint64`. -/
def inc64 (id : Nat) : Nat := (id + 1) % 2 ^ 64

/-- The digit loop of `fmt`'s integer formatting, most significant digit
first; `fuel` bounds the number of digits. -/
def fmtDigits : Nat → Nat → GoString → GoString
  | 0, _, acc => acc
  | fuel + 1, u, acc =>
    if u < 10 then (48 + u) :: acc
    else fmtDigits fuel (u / 10) ((48 + u % 10) :: acc)

/-- The `%d` verb of `fmt` on a non-negative integer. -/
def fmtNat (u : Nat) : GoString := fmtDigits (u + 1) u []

/-- The `%d` verb of `fmt` on an `int`: a minus sign for a negative number,
then the decimal digits of its magnitude. -/
def fmtInt (n : Int) : GoString :=
  if n < 0 then 45 :: fmtNat n.natAbs else fmtNat n.toNat

/-- The two failures of `strconv`'s number parsers. -/
inductive NumError where
  | ErrSyntax
  | ErrRange
  deriving DecidableEq, Repr

/-- The digit loop of `strconv.ParseUint(s, 10, 64)`: a byte that is not a
decimal digit is a syntax error with value 0, an overflow is a range error
with the maximal value. -/
def parseUintLoop : GoString → Nat → Nat × Option NumError
  | [], n => (n, none)
  | c :: cs, n =>
    if 48 ≤ c ∧ c ≤ 57 then
      if n ≥ (2 ^ 64 - 1) / 10 + 1 then (2 ^ 64 - 1, some .ErrRange)
      else
        let n1 := (n * 10 + (c - 48)) % 2 ^ 64
        if n1 < n * 10 ∨ n1 > 2 ^ 64 - 1 then (2 ^ 64 - 1, some .ErrRange)
        else parseUintLoop cs n1
    else (0, some .ErrSyntax)

/-- Go's `strconv.ParseUint(s, 10, 64)`. -/
def ParseUint (s : GoString) : Nat × Option NumError :=
  match s with
  | [] => (0, some .ErrSyntax)
  | _ :: _ => parseUintLoop s 0

/-- Go's `strconv.ParseInt(s, 10, 64)`: an optional sign, then
`ParseUint`; a syntax error gives 0, a range error gives the nearest bound. -/
def ParseInt (s : GoString) : Int × Option NumError :=
  match s with
  | [] => (0, some .ErrSyntax)
  | c :: rest =>
    let neg : Bool := c = 45
    let digits := if c = 43 ∨ c = 45 then rest else s
    match ParseUint digits with
    | (_, some .ErrSyntax) => (0, some .ErrSyntax)
    | (un, _) =>
      if neg = false ∧ un ≥ 2 ^ 63 then (2 ^ 63 - 1, some .ErrRange)
      else if neg = true ∧ un > 2 ^ 63 then (-(2 ^ 63), some .ErrRange)
      else if neg then (wrap64 (-(wrap64 un)), none)
      else (wrap64 un, none)

/-! ## The aggregate -/

/-- The aggregate `map[string]int`, as an enumeration of its entries. -/
abbrev Aggregate := List (GoString × Int)

/-- The keys of the aggregate in iteration order (`for stack := range s`). -/
def Aggregate.keys (s : Aggregate) : List GoString := s.map Prod.fst

/-- The list is a map: no key occurs twice. -/
def Aggregate.WF (s : Aggregate) : Prop := s.keys.Nodup

instance Aggregate.WF.decidable (s : Aggregate) : Decidable s.WF :=
  inferInstanceAs (Decidable s.keys.Nodup)

/-- The map index expression `s[stack]`: the count stored under the key, the zero
value when the key is absent. -/
def Aggregate.get : Aggregate → GoString → Int
  | [], _ => 0
  | (k, c) :: rest, stack => if stack = k then c else Aggregate.get rest stack

/-- The function `sortedKeys` of `format.go`: the keys are copied in iteration
order into a slice, which is then sorted with `sort.Strings`. -/
def sortedKeys (s : Aggregate) : List GoString :=
  sortStrings s.keys

/-! ## Errors, panics and the collaborators -/

/-- A run-time panic of the Go program. -/
inductive Panic where
  /-- An integer division by zero. -/
  | divideByZero
  /-- An index expression `a[index]` on a slice of length `length ≤ index`. -/
  | indexOutOfRange (index length : Nat)
  deriving DecidableEq, Repr

/-- An `error` value.  `unknownFormat f` is `fmt.Errorf("unknown format: %q", f)`;
`external msg` is an error made outside `format.go` (by the sink or by the
serializer), identified by its message. -/
inductive Error where
  | unknownFormat (f : GoString)
  | external (msg : GoString)
  deriving DecidableEq, Repr

/-- How a call ends: it returns its `error` result (`none` is `nil`), or it
panics.  Both carry the state of the sink at that moment. -/
inductive Outcome (σ : Type) where
  | returned (w : σ) (err : Option Error)
  | panicked (w : σ) (p : Panic)
  deriving DecidableEq, Repr

/-- The result of indexing a slice: the element, or the panic. -/
def index (a : List GoString) (i : Nat) : Except Panic GoString :=
  match a.get? i with
  | some x => .ok x
  | none => .error (.indexOutOfRange i a.length)

/-! ## The profile of `github.com/google/pprof/profile`

Only the fields `format.go` sets are carried; every other field keeps its zero
value.  A pointer to a record that is never changed after it is made is carried
as the record. -/

/-- The record `profile.ValueType`. -/
structure ValueType where
  Typ : GoString
  Unit : GoString
  deriving DecidableEq, Repr

/-- The record `profile.Mapping`. -/
structure Mapping where
  ID : Nat
  HasFunctions : Bool
  HasLineNumbers : Bool
  HasFilenames : Bool
  deriving DecidableEq, Repr

/-- The record `profile.Function`. -/
structure Function where
  ID : Nat
  Name : GoString
  Filename : GoString
  deriving DecidableEq, Repr

/-- The record `profile.Line`. -/
structure Line where
  Function : Function
  Line : Int
  deriving DecidableEq, Repr

/-- The record `profile.Location`. -/
structure Location where
  ID : Nat
  Mapping : Mapping
  Line : List Line
  deriving DecidableEq, Repr

/-- The record `profile.Sample`. -/
structure Sample where
  Value : List Int
  Location : List Location
  deriving DecidableEq, Repr

/-- The record `profile.Profile`. -/
structure Profile where
  SampleType : List ValueType
  Sample : List Sample
  Mapping : List Mapping
  Location : List Location
  Function : List Function
  PeriodType : Option ValueType
  Period : Int
  TimeNanos : Int
  DurationNanos : Int
  deriving DecidableEq, Repr

/-- The collaborators of `format.go`, for a sink with states `σ` and a
representation `τ` of `time.Time`. -/
structure Env (σ τ : Type) where
  /-- One call `w.Write(b)` of the sink: its new state and its error. -/
  Write : σ → GoString → σ × Option GoString
  /-- The call `p.Write(w)` of the profile library. -/
  ProfileWrite : Profile → σ → σ × Option GoString
  /-- The method `t.UnixNano()`. -/
  UnixNano : τ → Int
  /-- The method `t.Sub(u)`, a `time.Duration`. -/
  Sub : τ → τ → Int

/-! ## `format.go` -/

/-- The type `Format`, a string. -/
abbrev Format := GoString

/-- The constant `FormatFolded`. -/
def FormatFolded : Format := ascii "folded"

/-- The constant `FormatPprof`. -/
def FormatPprof : Format := ascii "pprof"

/-- The text of `fmt.Fprintf(w, "%s %d\n", stack, count)`; `Fprintf` hands it to
the sink in one `Write`. -/
def foldedLine (stack : GoString) (count : Int) : GoString :=
  stack ++ 32 :: fmtInt count ++ [10]

/-- The loop of `writeFolded` over the keys still to be written; stops at the
first failing write and returns its error. -/
def writeFoldedLoop {σ τ : Type} (env : Env σ τ) (s : Aggregate) :
    List GoString → σ → σ × Option Error
  | [], w => (w, none)
  | stack :: rest, w =>
    let count := s.get stack
    match env.Write w (foldedLine stack count) with
    | (w1, some err) => (w1, some (.external err))
    | (w1, none) => writeFoldedLoop env s rest w1

/-- The function `writeFolded` of `format.go`. -/
def writeFolded {σ τ : Type} (env : Env σ τ) (w : σ) (s : Aggregate) : σ × Option Error :=
  writeFoldedLoop env s (sortedKeys s) w

/-- What the loops of `toPprof` change: the two counters and the profile. -/
structure Builder where
  functionID : Nat
  locationID : Nat
  p : Profile

/-- The body of the inner loop of `toPprof` for one frame token `fnName`. -/
def frameStep (m : Mapping) (fnName : GoString) (b : Builder) (sample : Sample) :
    Except Panic (Builder × Sample) :=
  let fl := SplitN fnName 58 3
  match index fl 1 with
  | .error e => .error e
  | .ok fl1 =>
    let line := (ParseInt fl1).1
    match index fl 0 with
    | .error e => .error e
    | .ok fl0 =>
      match index fl 2 with
      | .error e => .error e
      | .ok fl2 =>
        let function : Function := { ID := b.functionID, Name := fl0, Filename := fl2 }
        let location : Location :=
          { ID := b.locationID, Mapping := m, Line := [{ Function := function, Line := line }] }
        .ok ({ functionID := inc64 b.functionID
               locationID := inc64 b.locationID
               p := { b.p with Function := b.p.Function ++ [function]
                               Location := b.p.Location ++ [location] } },
             { sample with Location := location :: sample.Location })

/-- The inner loop of `toPprof`, over the frame tokens of one stack. -/
def framesLoop (m : Mapping) : List GoString → Builder → Sample → Except Panic (Builder × Sample)
  | [], b, sample => .ok (b, sample)
  | fnName :: rest, b, sample =>
    match frameStep m fnName b sample with
    | .error e => .error e
    | .ok (b1, sample1) => framesLoop m rest b1 sample1

/-- The outer loop of `toPprof`, over the sorted keys still to be encoded. -/
def stacksLoop (m : Mapping) (s : Aggregate) (hz : Int) :
    List GoString → Builder → Except Panic Builder
  | [], b => .ok b
  | stack :: rest, b =>
    let count := s.get stack
    let sample : Sample :=
      { Value := [count, wrap64 (Int.tdiv (1000 * 1000 * 1000) hz * count)], Location := [] }
    match framesLoop m (Split stack 59) b sample with
    | .error e => .error e
    | .ok (b1, sample1) =>
      stacksLoop m s hz rest { b1 with p := { b1.p with Sample := b1.p.Sample ++ [sample1] } }

/-- The mapping record `toPprof` makes. -/
def theMapping : Mapping :=
  { ID := 1, HasFunctions := true, HasLineNumbers := true, HasFilenames := true }

/-- The profile `toPprof` has made when its loop starts: the header fields are
set and the tables are empty. -/
def header {σ τ : Type} (env : Env σ τ) (hz : Int) (startTime endTime : τ) : Profile :=
  { SampleType := [{ Typ := ascii "samples", Unit := ascii "count" },
                   { Typ := ascii "time", Unit := ascii "nanoseconds" }]
    Sample := []
    Mapping := [theMapping]
    Location := []
    Function := []
    PeriodType := some { Typ := ascii "wallclock", Unit := ascii "nanoseconds" }
    Period := Int.tdiv 1000000000 hz
    TimeNanos := env.UnixNano startTime
    DurationNanos := env.Sub endTime startTime }

/-- The function `toPprof` of `format.go`.  The division `1e9 / hz` panics when
`hz` is zero and cannot overflow otherwise. -/
def toPprof {σ τ : Type} (env : Env σ τ) (s : Aggregate) (hz : Int) (startTime endTime : τ) :
    Except Panic Profile :=
  if hz = 0 then .error .divideByZero
  else
    match stacksLoop theMapping s hz (sortedKeys s)
        { functionID := 1, locationID := 1, p := header env hz startTime endTime } with
    | .error e => .error e
    | .ok b => .ok b.p

/-- The function `writeFormat` of `format.go`. -/
def writeFormat {σ τ : Type} (env : Env σ τ) (w : σ) (s : Aggregate) (f : Format) (hz : Int)
    (startTime endTime : τ) : Outcome σ :=
  if f = FormatFolded then
    let r := writeFolded env w s
    .returned r.1 r.2
  else if f = FormatPprof then
    match toPprof env s hz startTime endTime with
    | .error e => .panicked w e
    | .ok p =>
      let r := env.ProfileWrite p w
      .returned r.1 (r.2.map Error.external)
  else .returned w (some (.unknownFormat f))

/-- A sink that never fails: its state is the bytes written so far. -/
def bufferWrite (w : GoString) (b : GoString) : GoString × Option GoString := (w ++ b, none)

/-! ## Definitions the statements refer to -/

/-- The base-10 numeral of a natural number, from its digits. -/
def decimal (n : Nat) : GoString :=
  if n = 0 then [48] else (Nat.digits 10 n).reverse.map (fun d => d + 48)

/-- An environment whose sink is the buffer that never fails; time is a count
of nanoseconds. -/
def bufferEnv : Env GoString Int :=
  { Write := bufferWrite
    ProfileWrite := fun _ w => (w, none)
    UnixNano := fun t => t
    Sub := fun t u => t - u }

/-- The aggregate of scenario A. -/
def scenarioA : Aggregate := [(ascii "main;foo:10:bar.go", 3)]

/-- An aggregate of three stacks, enumerated out of order. -/
def threeStacks : Aggregate :=
  [(ascii "main:1:m.go;run:7:r.go", 4), (ascii "main:1:m.go", 2),
   (ascii "init:3:i.go;main:1:m.go;run:7:r.go", 5)]

/-- The frame token splits into the three parts the body of the inner loop
indexes: it contains at least two colons. -/
def Parses (t : GoString) : Prop := (SplitN t 58 3).length = 3

instance Parses.decidable (t : GoString) : Decidable (Parses t) :=
  inferInstanceAs (Decidable ((SplitN t 58 3).length = 3))

/-- Every frame token of every key of the aggregate parses. -/
def KeysParse (s : Aggregate) : Prop := ∀ k ∈ s.keys, ∀ t ∈ Split k 59, Parses t

instance KeysParse.decidable (s : Aggregate) : Decidable (KeysParse s) :=
  inferInstanceAs (Decidable (∀ k ∈ s.keys, ∀ t ∈ Split k 59, Parses t))

/-- The frame tokens of the aggregate in the order `toPprof` meets them: key
after key in sorted order, root first within a key. -/
def tokens (s : Aggregate) : List GoString := (sortedKeys s).flatMap (fun k => Split k 59)

/-- The `i`-th colon-delimited part of a frame token. -/
def part (t : GoString) (i : Nat) : GoString := (SplitN t 58 3).getD i []

/-- The name, line and file name a frame token stands for. -/
def frameOf (t : GoString) : GoString × Int × GoString :=
  (part t 0, (ParseInt (part t 1)).1, part t 2)

/-- The name, line and file name each line of a location carries. -/
def Location.frames (l : Location) : List (GoString × Int × GoString) :=
  l.Line.map (fun x => (x.Function.Name, x.Line, x.Function.Filename))

/-- The counter after `n` increments. -/
def advance (id n : Nat) : Nat := inc64^[n] id

/-- The function record made for a frame token. -/
def functionOf (id : Nat) (t : GoString) : Function :=
  { ID := id, Name := part t 0, Filename := part t 2 }

/-- The location record made for a frame token. -/
def locationOf (m : Mapping) (fid lid : Nat) (t : GoString) : Location :=
  { ID := lid, Mapping := m
    Line := [{ Function := functionOf fid t, Line := (ParseInt (part t 1)).1 }] }

/-- The function records made for a run of frame tokens. -/
def functionsFrom : Nat → List GoString → List Function
  | _, [] => []
  | id, t :: ts => functionOf id t :: functionsFrom (inc64 id) ts

/-- The location records made for a run of frame tokens. -/
def locationsFrom (m : Mapping) : Nat → Nat → List GoString → List Location
  | _, _, [] => []
  | fid, lid, t :: ts => locationOf m fid lid t :: locationsFrom m (inc64 fid) (inc64 lid) ts

/-- The samples made for a run of keys. -/
def samplesFrom (m : Mapping) (s : Aggregate) (hz : Int) : Nat → Nat → List GoString → List Sample
  | _, _, [] => []
  | fid, lid, k :: ks =>
    { Value := [s.get k, wrap64 (Int.tdiv (1000 * 1000 * 1000) hz * s.get k)]
      Location := (locationsFrom m fid lid (Split k 59)).reverse }
      :: samplesFrom m s hz (advance fid (Split k 59).length) (advance lid (Split k 59).length) ks

/-- The number of frame tokens of the aggregate, summed over its keys. -/
def tokenCount (s : Aggregate) : Nat := (s.keys.map (fun k => (Split k 59).length)).sum

/-- The number of frame tokens `toPprof` has met before it starts on the `j`-th
sorted key. -/
def tokensBefore (s : Aggregate) (j : Nat) : Nat :=
  (((sortedKeys s).take j).flatMap (fun k => Split k 59)).length

/-- An aggregate whose only key is the frame token `main`, without a colon. -/
def bareToken : Aggregate := [(ascii "main", 1)]

/-- The profile `toPprof` returns, in closed form. -/
def profileOf {σ τ : Type} (env : Env σ τ) (s : Aggregate) (hz : Int) (startTime endTime : τ) :
    Profile :=
  { header env hz startTime endTime with
      Function := functionsFrom 1 (tokens s)
      Location := locationsFrom theMapping 1 1 (tokens s)
      Sample := samplesFrom theMapping s hz 1 1 (sortedKeys s) }

/-- The byte is a decimal digit. -/
def isDigit (c : Nat) : Prop := 48 ≤ c ∧ c ≤ 57

instance isDigit.decidable (c : Nat) : Decidable (isDigit c) :=
  inferInstanceAs (Decidable (48 ≤ c ∧ c ≤ 57))

/-- The text without its leading sign, if it has one. -/
def unsigned : GoString → GoString
  | [] => []
  | c :: rest => if c = 43 ∨ c = 45 then rest else c :: rest

/-- The text is not the start of a numeral: it is empty, or one of its first
19 bytes is not a decimal digit. -/
def NoNumeral (s : GoString) : Prop :=
  s = [] ∨ ∃ i c, i ≤ 18 ∧ s[i]? = some c ∧ ¬ isDigit c

/-- An aggregate whose only key is a frame token with a line number beyond
64 bits. -/
def hugeLine : Aggregate := [(ascii "foo:99999999999999999999:bar.go", 1)]

/-- An aggregate whose only key is a frame token with one colon. -/
def oneColon : Aggregate := [(ascii "foo:10", 1)]

/-- The aggregate of scenario A with a line and a file for the frame `main`. -/
def scenarioB : Aggregate := [(ascii "main:1:main.go;foo:10:bar.go", 3)]

/-- The lines `writeFolded` hands to the sink, in order, when no write fails. -/
def foldedLines (s : Aggregate) : List GoString :=
  (sortedKeys s).map (fun k => foldedLine k (s.get k))

/-- The state of the sink after the given texts have been written to it one
after the other. -/
def afterWrites {σ τ : Type} (env : Env σ τ) (w : σ) (texts : List GoString) : σ :=
  texts.foldl (fun w1 text => (env.Write w1 text).1) w

/-- An environment whose sink counts the calls of `Write` and keeps the bytes
delivered; call number `k` (from 0) fails with the error `e` after delivering
the first `d` bytes of its text, every other call succeeds. -/
def failingEnv (k : Nat) (e : GoString) (d : Nat) : Env (Nat × GoString) Int :=
  { Write := fun w text =>
      if w.1 = k then ((w.1 + 1, w.2 ++ text.take d), some e)
      else ((w.1 + 1, w.2 ++ text), none)
    ProfileWrite := fun _ w => (w, none)
    UnixNano := fun t => t
    Sub := fun t u => t - u }

/-- The number a text of decimal digits stands for. -/
def digitsValue (s : GoString) : Nat := s.foldl (fun a c => 10 * a + (c - 48)) 0

/-- Reading a base-10 numeral: a non-empty text of decimal digits. -/
def readDecimal (s : GoString) : Option Nat :=
  if s ≠ [] ∧ ∀ c ∈ s, isDigit c then some (digitsValue s) else none

/-- The text before and the text after the last space. -/
def splitLastSpace : GoString → Option (GoString × GoString)
  | [] => none
  | c :: cs =>
    match splitLastSpace cs with
    | some (a, b) => some (c :: a, b)
    | none => if c = 32 then some ([], cs) else none

/-- Reading a line of the folded format back: the line ends in a newline; what
is before it is split at its last space, and the right part is read as a
base-10 numeral. -/
def parseFoldedLine (line : GoString) : Option (GoString × Int) :=
  if line.getLast? = some 10 then
    match splitLastSpace line.dropLast with
    | some (key, digits) => (readDecimal digits).map (fun (n : Nat) => (key, Int.ofNat n))
    | none => none
  else none

/-! ## The order of the keys -/

/-- Go's `<` on strings is the lexicographic order of the byte sequences. -/
theorem strLess_iff_lex (a b : GoString) : strLess a b = true ↔ List.Lex (· < ·) a b := by
  induction a generalizing b with
  | nil =>
    cases b with
    | nil => simp [strLess, List.Lex.not_nil_right]
    | cons y ys => simp [strLess, List.Lex.nil]
  | cons x xs ih =>
    cases b with
    | nil => simp [strLess, List.Lex.not_nil_right]
    | cons y ys =>
      rw [strLess]
      rcases Nat.lt_trichotomy x y with h | h | h
      · simp only [h, if_true, true_iff]
        exact List.Lex.rel h
      · subst h
        simp only [lt_irrefl, if_false]
        rw [ih, List.Lex.cons_iff]
      · have h1 : ¬ x < y := by omega
        simp only [h1, h, if_true, if_false]
        constructor
        · intro hf; cases hf
        · intro hl
          cases hl with
          | cons _ => omega
          | rel hr => omega

theorem strLE_iff (a b : GoString) : strLE a b ↔ ¬ List.Lex (· < ·) b a := by
  unfold strLE
  rw [← strLess_iff_lex]
  simp

theorem strLE_total : IsTotal GoString strLE where
  total a b := by
    rw [strLE_iff, strLE_iff]
    by_contra h
    push_neg at h
    exact asymm h.1 h.2

theorem strLE_trans : IsTrans GoString strLE where
  trans a b c hab hbc := by
    rw [strLE_iff] at *
    intro hca
    rcases trichotomous_of (List.Lex (· < · : Nat → Nat → Prop)) a b with h | h | h
    · exact hbc (IsTrans.trans _ _ _ hca h)
    · subst h; exact hbc hca
    · exact hab h

theorem strLE_antisymm : IsAntisymm GoString strLE where
  antisymm a b hab hba := by
    rw [strLE_iff] at *
    rcases trichotomous_of (List.Lex (· < · : Nat → Nat → Prop)) a b with h | h | h
    · exact absurd h hba
    · exact h
    · exact absurd h hab

theorem sortedKeys_perm (s : Aggregate) : (sortedKeys s).Perm s.keys :=
  List.perm_insertionSort strLE s.keys

theorem sortedKeys_sorted_le (s : Aggregate) : List.Sorted strLE (sortedKeys s) :=
  @List.sorted_insertionSort _ strLE _ strLE_total strLE_trans s.keys

theorem sorted_lex_of_sorted_le {l : List GoString} (h : List.Sorted strLE l) (hn : l.Nodup) :
    List.Sorted (List.Lex (· < ·)) l := by
  induction l with
  | nil => exact List.sorted_nil
  | cons a l ih =>
    rw [List.sorted_cons] at h ⊢
    rw [List.nodup_cons] at hn
    refine ⟨fun b hb => ?_, ih h.2 hn.2⟩
    have hab := h.1 b hb
    rw [strLE_iff] at hab
    rcases trichotomous_of (List.Lex (· < · : Nat → Nat → Prop)) a b with h1 | h1 | h1
    · exact h1
    · subst h1; exact absurd hb hn.1
    · exact absurd h1 hab

theorem sorted_le_of_sorted_lex {l : List GoString} (h : List.Sorted (List.Lex (· < ·)) l) :
    List.Sorted strLE l :=
  List.Pairwise.imp (fun {a b} hab => (strLE_iff a b).2 (fun hba => asymm hab hba)) h

/-- The sorted keys are the only strictly ascending arrangement of the keys. -/
theorem sortedKeys_unique (s : Aggregate) (ks : List GoString) (hp : ks.Perm s.keys)
    (ho : List.Sorted (List.Lex (· < ·)) ks) : sortedKeys s = ks :=
  @List.eq_of_perm_of_sorted _ strLE strLE_antisymm _ _ ((sortedKeys_perm s).trans hp.symm)
    (sortedKeys_sorted_le s) (sorted_le_of_sorted_lex ho)

theorem sortedKeys_nodup (s : Aggregate) (hs : s.WF) : (sortedKeys s).Nodup :=
  (sortedKeys_perm s).nodup_iff.2 hs

theorem sortedKeys_sorted_lex (s : Aggregate) (hs : s.WF) :
    List.Sorted (List.Lex (· < ·)) (sortedKeys s) :=
  sorted_lex_of_sorted_le (sortedKeys_sorted_le s) (sortedKeys_nodup s hs)

theorem mem_keys_iff (s : Aggregate) (k : GoString) : k ∈ s.keys ↔ ∃ c, (k, c) ∈ s := by
  simp [Aggregate.keys]

/-! ## The map index -/

theorem get_of_mem (s : Aggregate) (hs : s.WF) (k : GoString) (c : Int) (h : (k, c) ∈ s) :
    s.get k = c := by
  induction s with
  | nil => cases h
  | cons kv rest ih =>
    obtain ⟨k1, c1⟩ := kv
    have hn : k1 ∉ Aggregate.keys rest ∧ (Aggregate.keys rest).Nodup := by
      simpa [Aggregate.WF, Aggregate.keys] using hs
    rw [Aggregate.get]
    rcases List.mem_cons.1 h with h1 | h1
    · cases h1; simp
    · have hk : k ∈ Aggregate.keys rest := (mem_keys_iff rest k).2 ⟨c, h1⟩
      have hne : k ≠ k1 := fun e => hn.1 (e ▸ hk)
      simp only [hne, if_false]
      exact ih hn.2 h1

theorem get_mem (s : Aggregate) (hs : s.WF) (k : GoString) (h : k ∈ s.keys) :
    (k, s.get k) ∈ s := by
  obtain ⟨c, hc⟩ := (mem_keys_iff s k).1 h
  rw [get_of_mem s hs k c hc]
  exact hc

/-- Two enumerations of one map give the same count for every key. -/
theorem get_perm (s t : Aggregate) (hs : s.WF) (hp : s.Perm t) (k : GoString) :
    s.get k = t.get k := by
  have ht : t.WF := (List.Perm.map Prod.fst hp).nodup_iff.1 hs
  by_cases hk : k ∈ s.keys
  · have h1 := get_mem s hs k hk
    exact (get_of_mem t ht k _ (hp.mem_iff.1 h1)).symm
  · have hk2 : k ∉ t.keys := fun h => hk ((List.Perm.map Prod.fst hp).mem_iff.2 h)
    have key : ∀ u : Aggregate, k ∉ u.keys → u.get k = 0 := by
      intro u
      induction u with
      | nil => intro _; rfl
      | cons kv rest ih =>
        obtain ⟨k1, c1⟩ := kv
        intro hu
        have hu2 : k ≠ k1 ∧ k ∉ Aggregate.keys rest := by
          simpa [Aggregate.keys] using hu
        rw [Aggregate.get]
        simp only [hu2.1, if_false]
        exact ih hu2.2
    rw [key s hk, key t hk2]

theorem sortedKeys_perm_eq (s t : Aggregate) (hs : s.WF) (hp : s.Perm t) :
    sortedKeys s = sortedKeys t := by
  have ht : t.WF := (List.Perm.map Prod.fst hp).nodup_iff.1 hs
  exact sortedKeys_unique s (sortedKeys t)
    ((sortedKeys_perm t).trans (List.Perm.map Prod.fst hp).symm) (sortedKeys_sorted_lex t ht)

/-! ## The folded encoding -/

theorem decimal_step (u : Nat) (h : 10 ≤ u) :
    decimal u = decimal (u / 10) ++ [48 + u % 10] := by
  have h0 : u ≠ 0 := by omega
  have h1 : u / 10 ≠ 0 := by omega
  rw [decimal, decimal, if_neg h0, if_neg h1, Nat.digits_def' (by norm_num) (by omega)]
  simp [Nat.add_comm]

theorem decimal_small (u : Nat) (h : u < 10) : decimal u = [48 + u] := by
  rw [decimal]
  by_cases h0 : u = 0
  · simp [h0]
  · rw [if_neg h0, Nat.digits_of_lt 10 u h0 h]
    simp [Nat.add_comm]

theorem fmtDigits_eq (fuel u : Nat) (acc : GoString) (h : u < fuel) :
    fmtDigits fuel u acc = decimal u ++ acc := by
  induction fuel generalizing u acc with
  | zero => omega
  | succ fuel ih =>
    rw [fmtDigits]
    by_cases hu : u < 10
    · simp [hu, decimal_small u hu]
    · rw [if_neg hu, ih (u / 10) _ (by omega), decimal_step u (by omega)]
      simp

/-- The `%d` verb prints the base-10 numeral. -/
theorem fmtNat_eq (u : Nat) : fmtNat u = decimal u := by
  rw [fmtNat, fmtDigits_eq _ _ _ (Nat.lt_succ_self u)]
  simp

theorem fmtInt_nonneg (c : Int) (h : 0 ≤ c) : fmtInt c = decimal c.toNat := by
  rw [fmtInt, if_neg (not_lt.2 h), fmtNat_eq]

theorem writeFoldedLoop_buffer {τ : Type} (env : Env GoString τ) (hW : env.Write = bufferWrite)
    (s : Aggregate) (ks : List GoString) (w : GoString) :
    writeFoldedLoop env s ks w
      = (w ++ (ks.map (fun k => foldedLine k (s.get k))).flatten, none) := by
  induction ks generalizing w with
  | nil => simp [writeFoldedLoop]
  | cons k ks ih =>
    rw [writeFoldedLoop]
    simp only [hW, bufferWrite]
    rw [ih]
    simp

/-- C1: on a sink that never fails, `writeFolded` writes exactly the lines
`key ++ " " ++ decimal count ++ "\n"` of the keys in strictly ascending
byte-wise lexicographic order, one after the other and nothing else, and
returns no error, for every aggregate with non-negative counts. -/
theorem writeFolded_output {τ : Type} (env : Env GoString τ) (hW : env.Write = bufferWrite)
    (s : Aggregate) (hs : s.WF) (hc : ∀ kv ∈ s, 0 ≤ kv.2)
    (ks : List GoString) (hp : ks.Perm s.keys) (ho : List.Sorted (List.Lex (· < ·)) ks)
    (w : GoString) :
    writeFolded env w s
      = (w ++ (ks.map (fun k => k ++ ascii " " ++ decimal (s.get k).toNat ++ ascii "\n")).flatten,
         none) := by
  rw [writeFolded, sortedKeys_unique s ks hp ho, writeFoldedLoop_buffer env hW]
  congr 2
  congr 1
  apply List.map_congr_left
  intro k hk
  have hmem := get_mem s hs k (hp.mem_iff.1 hk)
  have h0 := hc _ hmem
  simp only [foldedLine, fmtInt_nonneg _ h0]
  simp [ascii]

/-- C1, scenario A: the aggregate with the one key `main;foo:10:bar.go` and
count 3 is written as the one line `main;foo:10:bar.go 3`. -/
theorem writeFolded_output_witness :
    writeFolded bufferEnv [] scenarioA = (ascii "main;foo:10:bar.go 3\n", none) :=
  (writeFolded_output bufferEnv rfl scenarioA (by decide) (by decide)
    [ascii "main;foo:10:bar.go"] (by decide) (by decide) []).trans (by
      simp [scenarioA, Aggregate.get, decimal, ascii])

/-- C2: `sortedKeys` returns a permutation of the keys of the aggregate (same
length, no key twice, exactly the keys) that is strictly ascending in the
byte-wise lexicographic order, and the folded output consists of the lines of
these keys in this order. -/
theorem sortedKeys_sorted_perm (s : Aggregate) (hs : s.WF) :
    (sortedKeys s).Perm s.keys ∧ (sortedKeys s).length = s.length ∧ (sortedKeys s).Nodup
      ∧ (∀ k, k ∈ sortedKeys s ↔ ∃ c, (k, c) ∈ s)
      ∧ List.Sorted (List.Lex (· < ·)) (sortedKeys s)
      ∧ ∀ {τ : Type} (env : Env GoString τ), env.Write = bufferWrite → ∀ w : GoString,
          writeFolded env w s
            = (w ++ ((sortedKeys s).map (fun k => foldedLine k (s.get k))).flatten, none) := by
  refine ⟨sortedKeys_perm s, ?_, sortedKeys_nodup s hs, ?_, sortedKeys_sorted_lex s hs, ?_⟩
  · rw [(sortedKeys_perm s).length_eq]
    simp [Aggregate.keys]
  · intro k
    rw [(sortedKeys_perm s).mem_iff, mem_keys_iff]
  · intro τ env hW w
    exact writeFoldedLoop_buffer env hW s (sortedKeys s) w

/-- C2 on three stacks enumerated out of order: the keys come out in
ascending order. -/
theorem sortedKeys_sorted_perm_witness :
    threeStacks.WF ∧ sortedKeys threeStacks
      = [ascii "init:3:i.go;main:1:m.go;run:7:r.go", ascii "main:1:m.go",
         ascii "main:1:m.go;run:7:r.go"]
      ∧ List.Sorted (List.Lex (· < ·)) (sortedKeys threeStacks) :=
  ⟨by decide, by decide, (sortedKeys_sorted_perm threeStacks (by decide)).2.2.2.2.1⟩

/-! ## Independence of the iteration order -/

theorem writeFoldedLoop_congr {σ τ : Type} (env : Env σ τ) (s t : Aggregate)
    (h : ∀ k, s.get k = t.get k) (ks : List GoString) (w : σ) :
    writeFoldedLoop env s ks w = writeFoldedLoop env t ks w := by
  induction ks generalizing w with
  | nil => rfl
  | cons k ks ih =>
    rw [writeFoldedLoop, writeFoldedLoop, h k]
    rcases env.Write w (foldedLine k (t.get k)) with ⟨w1, _ | e⟩
    · exact ih w1
    · rfl

theorem stacksLoop_congr (m : Mapping) (s t : Aggregate) (hz : Int)
    (h : ∀ k, s.get k = t.get k) (ks : List GoString) (b : Builder) :
    stacksLoop m s hz ks b = stacksLoop m t hz ks b := by
  induction ks generalizing b with
  | nil => rfl
  | cons k ks ih =>
    rw [stacksLoop, stacksLoop, h k]
    rcases framesLoop m (Split k 59) b
      { Value := [t.get k, wrap64 (Int.tdiv (1000 * 1000 * 1000) hz * t.get k)], Location := [] }
      with e | ⟨b1, sample1⟩
    · rfl
    · exact ih _

/-- C3: two enumerations of the same aggregate (lists with pairwise distinct
keys that are permutations of each other) make `writeFolded` leave the sink in
the same state with the same result, and make `toPprof` build the same profile
(or end in the same panic), for the same frequency and times. -/
theorem encoding_deterministic {σ τ : Type} (env : Env σ τ) (s t : Aggregate) (hs : s.WF)
    (hp : s.Perm t) (w : σ) (hz : Int) (startTime endTime : τ) :
    writeFolded env w s = writeFolded env w t
      ∧ toPprof env s hz startTime endTime = toPprof env t hz startTime endTime := by
  have hk := sortedKeys_perm_eq s t hs hp
  have hg := get_perm s t hs hp
  constructor
  · rw [writeFolded, writeFolded, hk]
    exact writeFoldedLoop_congr env s t hg _ w
  · unfold toPprof
    rw [hk, stacksLoop_congr theMapping s t hz hg]

/-- C3 on the three stacks and their reversed enumeration. -/
theorem encoding_deterministic_witness :
    writeFolded bufferEnv [] threeStacks = writeFolded bufferEnv [] threeStacks.reverse
      ∧ toPprof bufferEnv threeStacks 100 7 9 = toPprof bufferEnv threeStacks.reverse 100 7 9 :=
  encoding_deterministic bufferEnv threeStacks threeStacks.reverse (by decide)
    (List.reverse_perm threeStacks).symm [] 100 7 9

/-! ## The dispatcher -/

/-- C4: for a selector other than `folded` and `pprof`, `writeFormat` returns
the unknown-format error carrying the selector and the sink is as it was; for
`folded` and `pprof` it never returns an unknown-format error. -/
theorem writeFormat_selector {σ τ : Type} (env : Env σ τ) (w : σ) (s : Aggregate) (f : Format)
    (hz : Int) (startTime endTime : τ) :
    (f ≠ FormatFolded → f ≠ FormatPprof →
        writeFormat env w s f hz startTime endTime = .returned w (some (.unknownFormat f)))
      ∧ (f = FormatFolded ∨ f = FormatPprof → ∀ (w1 : σ) (g : GoString),
          writeFormat env w s f hz startTime endTime ≠ .returned w1 (some (.unknownFormat g))) := by
  constructor
  · intro h1 h2
    simp [writeFormat, h1, h2]
  · rintro (h | h) w1 g
    · subst h
      simp only [writeFormat, if_true]
      unfold writeFolded
      generalize sortedKeys s = ks
      induction ks generalizing w with
      | nil => simp [writeFoldedLoop]
      | cons k ks ih =>
        rw [writeFoldedLoop]
        rcases env.Write w (foldedLine k (s.get k)) with ⟨w2, _ | e⟩
        · exact ih w2
        · simp
    · subst h
      have hne : FormatPprof ≠ FormatFolded := by decide
      simp only [writeFormat, if_neg hne, if_true]
      rcases toPprof env s hz startTime endTime with e | p
      · simp
      · rcases env.ProfileWrite p w with ⟨w2, _ | e⟩ <;> simp

/-- C4, scenario E: the selector `json` is refused and nothing is written. -/
theorem writeFormat_selector_witness :
    writeFormat bufferEnv [] scenarioA (ascii "json") 100 0 0
      = .returned [] (some (.unknownFormat (ascii "json"))) :=
  (writeFormat_selector bufferEnv [] scenarioA (ascii "json") 100 0 0).1 (by decide) (by decide)

/-! ## The loops of `toPprof` in closed form -/

theorem advance_zero (id : Nat) : advance id 0 = id := rfl

theorem advance_succ (id n : Nat) : advance id (n + 1) = advance (inc64 id) n := rfl

theorem advance_add (id a b : Nat) : advance id (a + b) = advance (advance id a) b := by
  rw [advance, Nat.add_comm, Function.iterate_add_apply]
  rfl

theorem advance_eq (id n : Nat) (h : id + n < 2 ^ 64) : advance id n = id + n := by
  induction n generalizing id with
  | zero => rfl
  | succ n ih =>
    have h1 : inc64 id = id + 1 := Nat.mod_eq_of_lt (by omega)
    rw [advance_succ, h1, ih (id + 1) (by omega)]
    omega

theorem index_of_parses (t : GoString) (h : Parses t) (i : Nat) (hi : i < 3) :
    index (SplitN t 58 3) i = .ok (part t i) := by
  unfold Parses at h
  have hlt : i < (SplitN t 58 3).length := by omega
  simp [index, part, List.get?_eq_getElem?, List.getD_eq_getElem?_getD,
    List.getElem?_eq_getElem hlt]

theorem frameStep_ok (m : Mapping) (t : GoString) (h : Parses t) (b : Builder) (sample : Sample) :
    frameStep m t b sample
      = .ok ({ functionID := inc64 b.functionID
               locationID := inc64 b.locationID
               p := { b.p with
                        Function := b.p.Function ++ [functionOf b.functionID t]
                        Location := b.p.Location ++ [locationOf m b.functionID b.locationID t] } },
             { sample with
                 Location := locationOf m b.functionID b.locationID t :: sample.Location }) := by
  simp only [frameStep, index_of_parses t h 0 (by omega), index_of_parses t h 1 (by omega),
    index_of_parses t h 2 (by omega)]
  rfl

theorem framesLoop_ok (m : Mapping) (ts : List GoString) (h : ∀ t ∈ ts, Parses t) (b : Builder)
    (sample : Sample) :
    framesLoop m ts b sample
      = .ok ({ functionID := advance b.functionID ts.length
               locationID := advance b.locationID ts.length
               p := { b.p with
                        Function := b.p.Function ++ functionsFrom b.functionID ts
                        Location := b.p.Location
                          ++ locationsFrom m b.functionID b.locationID ts } },
             { sample with
                 Location := (locationsFrom m b.functionID b.locationID ts).reverse
                   ++ sample.Location }) := by
  induction ts generalizing b sample with
  | nil => simp [framesLoop, functionsFrom, locationsFrom, advance_zero]
  | cons t ts ih =>
    rw [framesLoop, frameStep_ok m t (h t (List.mem_cons_self t ts))]
    simp only []
    rw [ih (fun u hu => h u (List.mem_cons_of_mem t hu))]
    simp [functionsFrom, locationsFrom, advance_succ]

theorem functionsFrom_append (id : Nat) (a b : List GoString) :
    functionsFrom id (a ++ b) = functionsFrom id a ++ functionsFrom (advance id a.length) b := by
  induction a generalizing id with
  | nil => rfl
  | cons t a ih => simp [functionsFrom, ih, advance_succ]

theorem locationsFrom_append (m : Mapping) (fid lid : Nat) (a b : List GoString) :
    locationsFrom m fid lid (a ++ b)
      = locationsFrom m fid lid a
        ++ locationsFrom m (advance fid a.length) (advance lid a.length) b := by
  induction a generalizing fid lid with
  | nil => rfl
  | cons t a ih => simp [locationsFrom, ih, advance_succ]

theorem stacksLoop_ok (m : Mapping) (s : Aggregate) (hz : Int) (ks : List GoString)
    (h : ∀ k ∈ ks, ∀ t ∈ Split k 59, Parses t) (b : Builder) :
    stacksLoop m s hz ks b
      = .ok { functionID := advance b.functionID (ks.flatMap (fun k => Split k 59)).length
              locationID := advance b.locationID (ks.flatMap (fun k => Split k 59)).length
              p := { b.p with
                       Function := b.p.Function
                         ++ functionsFrom b.functionID (ks.flatMap (fun k => Split k 59))
                       Location := b.p.Location
                         ++ locationsFrom m b.functionID b.locationID
                              (ks.flatMap (fun k => Split k 59))
                       Sample := b.p.Sample
                         ++ samplesFrom m s hz b.functionID b.locationID ks } } := by
  induction ks generalizing b with
  | nil => simp [stacksLoop, functionsFrom, locationsFrom, samplesFrom, advance_zero]
  | cons k ks ih =>
    rw [stacksLoop]
    simp only []
    rw [framesLoop_ok m (Split k 59) (h k (List.mem_cons_self k ks))]
    simp only []
    rw [ih (fun u hu => h u (List.mem_cons_of_mem k hu))]
    simp [functionsFrom_append, locationsFrom_append, samplesFrom, advance_add]

/-- When the frequency is not zero and every frame token parses, `toPprof`
returns the profile with the header and the tables in closed form. -/
theorem toPprof_ok {σ τ : Type} (env : Env σ τ) (s : Aggregate) (hz : Int) (startTime endTime : τ)
    (hhz : hz ≠ 0) (hk : KeysParse s) :
    toPprof env s hz startTime endTime = .ok (profileOf env s hz startTime endTime) := by
  have hk2 : ∀ k ∈ sortedKeys s, ∀ t ∈ Split k 59, Parses t :=
    fun k hks => hk k ((sortedKeys_perm s).mem_iff.1 hks)
  rw [toPprof, if_neg hhz, stacksLoop_ok theMapping s hz (sortedKeys s) hk2]
  simp [profileOf, header, tokens]

/-! ## When `toPprof` returns -/

theorem SplitN_length_le (s : GoString) (sep n : Nat) : (SplitN s sep n).length ≤ n := by
  induction n using Nat.strongRecOn generalizing s with
  | _ n ih =>
    match n with
    | 0 => simp [SplitN]
    | 1 => simp [SplitN]
    | n + 2 =>
      rw [SplitN]
      rcases cut s sep with _ | ⟨a, b⟩
      · simp
      · have := ih (n + 1) (by omega) b
        simp only [List.length_cons]
        omega

theorem index_ok_lt (a : List GoString) (i : Nat) (x : GoString) (h : index a i = .ok x) :
    i < a.length := by
  unfold index at h
  rcases hg : a.get? i with _ | y
  · rw [hg] at h; cases h
  · exact (List.get?_eq_some.1 hg).1

theorem frameStep_parses (m : Mapping) (t : GoString) (b : Builder) (sample : Sample)
    (r : Builder × Sample) (h : frameStep m t b sample = .ok r) : Parses t := by
  unfold frameStep at h
  simp only [] at h
  rcases h1 : index (SplitN t 58 3) 1 with e | x1
  · rw [h1] at h; cases h
  · rw [h1] at h
    simp only [] at h
    rcases h0 : index (SplitN t 58 3) 0 with e | x0
    · rw [h0] at h; cases h
    · rw [h0] at h
      simp only [] at h
      rcases h2 : index (SplitN t 58 3) 2 with e | x2
      · rw [h2] at h; cases h
      · have hlt := index_ok_lt _ _ _ h2
        have hle := SplitN_length_le t 58 3
        unfold Parses
        omega

theorem framesLoop_parses (m : Mapping) (ts : List GoString) (b : Builder) (sample : Sample)
    (r : Builder × Sample) (h : framesLoop m ts b sample = .ok r) : ∀ t ∈ ts, Parses t := by
  induction ts generalizing b sample with
  | nil => intro t ht; cases ht
  | cons t ts ih =>
    rw [framesLoop] at h
    rcases h1 : frameStep m t b sample with e | ⟨b1, sample1⟩
    · rw [h1] at h; cases h
    · rw [h1] at h
      intro u hu
      rcases List.mem_cons.1 hu with hu | hu
      · subst hu; exact frameStep_parses m u b sample _ h1
      · exact ih b1 sample1 h u hu

theorem stacksLoop_parses (m : Mapping) (s : Aggregate) (hz : Int) (ks : List GoString)
    (b r : Builder) (h : stacksLoop m s hz ks b = .ok r) :
    ∀ k ∈ ks, ∀ t ∈ Split k 59, Parses t := by
  induction ks generalizing b with
  | nil => intro k hk; cases hk
  | cons k ks ih =>
    rw [stacksLoop] at h
    simp only [] at h
    rcases h1 : framesLoop m (Split k 59) b
      { Value := [s.get k, wrap64 (Int.tdiv (1000 * 1000 * 1000) hz * s.get k)], Location := [] }
      with e | ⟨b1, sample1⟩
    · rw [h1] at h; cases h
    · rw [h1] at h
      intro u hu
      rcases List.mem_cons.1 hu with hu | hu
      · subst hu; exact framesLoop_parses m _ b _ _ h1
      · exact ih _ h u hu

/-- The function `toPprof` returns a profile exactly when the frequency is not
zero and every frame token parses, and then it is the profile in closed form. -/
theorem toPprof_ok_iff {σ τ : Type} (env : Env σ τ) (s : Aggregate) (hz : Int)
    (startTime endTime : τ) (p : Profile) :
    toPprof env s hz startTime endTime = .ok p
      ↔ hz ≠ 0 ∧ KeysParse s ∧ p = profileOf env s hz startTime endTime := by
  constructor
  · intro h
    have hhz : hz ≠ 0 := by
      intro h0
      rw [toPprof, if_pos h0] at h
      cases h
    have hk : KeysParse s := by
      rw [toPprof, if_neg hhz] at h
      rcases h1 : stacksLoop theMapping s hz (sortedKeys s)
        { functionID := 1, locationID := 1, p := header env hz startTime endTime } with e | r
      · rw [h1] at h; cases h
      · intro k hks
        exact stacksLoop_parses _ _ _ _ _ _ h1 k ((sortedKeys_perm s).mem_iff.2 hks)
    refine ⟨hhz, hk, ?_⟩
    rw [toPprof_ok env s hz startTime endTime hhz hk] at h
    cases h
    rfl
  · rintro ⟨hhz, hk, rfl⟩
    exact toPprof_ok env s hz startTime endTime hhz hk

/-! ## The tables -/

theorem functionsFrom_length (id : Nat) (ts : List GoString) :
    (functionsFrom id ts).length = ts.length := by
  induction ts generalizing id with
  | nil => rfl
  | cons t ts ih => simp [functionsFrom, ih]

theorem locationsFrom_length (m : Mapping) (fid lid : Nat) (ts : List GoString) :
    (locationsFrom m fid lid ts).length = ts.length := by
  induction ts generalizing fid lid with
  | nil => rfl
  | cons t ts ih => simp [locationsFrom, ih]

theorem samplesFrom_length (m : Mapping) (s : Aggregate) (hz : Int) (fid lid : Nat)
    (ks : List GoString) : (samplesFrom m s hz fid lid ks).length = ks.length := by
  induction ks generalizing fid lid with
  | nil => rfl
  | cons k ks ih => simp [samplesFrom, ih]

theorem functionsFrom_getElem? (id : Nat) (ts : List GoString) (k : Nat) :
    (functionsFrom id ts)[k]? = (ts[k]?).map (functionOf (advance id k)) := by
  induction ts generalizing id k with
  | nil => simp [functionsFrom]
  | cons t ts ih =>
    cases k with
    | zero => simp [functionsFrom, advance_zero]
    | succ k => simp [functionsFrom, ih, advance_succ]

theorem locationsFrom_getElem? (m : Mapping) (fid lid : Nat) (ts : List GoString) (k : Nat) :
    (locationsFrom m fid lid ts)[k]?
      = (ts[k]?).map (locationOf m (advance fid k) (advance lid k)) := by
  induction ts generalizing fid lid k with
  | nil => simp [locationsFrom]
  | cons t ts ih =>
    cases k with
    | zero => simp [locationsFrom, advance_zero]
    | succ k => simp [locationsFrom, ih, advance_succ]

theorem locationsFrom_frames (m : Mapping) (fid lid : Nat) (ts : List GoString) :
    (locationsFrom m fid lid ts).map Location.frames = ts.map (fun t => [frameOf t]) := by
  induction ts generalizing fid lid with
  | nil => rfl
  | cons t ts ih => simp [locationsFrom, ih, Location.frames, locationOf, functionOf, frameOf]

theorem functionsFrom_names (id : Nat) (ts : List GoString) :
    (functionsFrom id ts).map (fun f => (f.Name, f.Filename))
      = ts.map (fun t => (part t 0, part t 2)) := by
  induction ts generalizing id with
  | nil => rfl
  | cons t ts ih => simp [functionsFrom, ih, functionOf]

theorem tokens_length (s : Aggregate) : (tokens s).length = tokenCount s := by
  rw [tokens, tokenCount, List.length_flatMap]
  exact ((sortedKeys_perm s).map _).sum_eq

theorem mem_samplesFrom (m : Mapping) (s : Aggregate) (hz : Int) (fid lid : Nat)
    (ks : List GoString) (x : Sample) (hx : x ∈ samplesFrom m s hz fid lid ks) :
    ∃ k ∈ ks, x.Value = [s.get k, wrap64 (Int.tdiv 1000000000 hz * s.get k)] := by
  induction ks generalizing fid lid with
  | nil => simp [samplesFrom] at hx
  | cons k ks ih =>
    rw [samplesFrom, List.mem_cons] at hx
    rcases hx with hx | hx
    · exact ⟨k, List.mem_cons_self k ks, by rw [hx]; norm_num⟩
    · obtain ⟨k1, hk1, hv⟩ := ih _ _ hx
      exact ⟨k1, List.mem_cons_of_mem k hk1, hv⟩

theorem samplesFrom_counts (m : Mapping) (s : Aggregate) (hz : Int) (fid lid : Nat)
    (ks : List GoString) :
    (samplesFrom m s hz fid lid ks).map (fun x => x.Value.getD 0 0) = ks.map s.get := by
  induction ks generalizing fid lid with
  | nil => rfl
  | cons k ks ih =>
    rw [samplesFrom, List.map_cons, List.map_cons, ih]
    rfl

theorem sum_get_keys (s : Aggregate) (hs : s.WF) :
    (s.keys.map s.get).sum = (s.map Prod.snd).sum := by
  have h : s.keys.map s.get = s.map Prod.snd := by
    rw [Aggregate.keys, List.map_map]
    apply List.map_congr_left
    rintro ⟨k, c⟩ hkc
    exact get_of_mem s hs k c hkc
  rw [h]

/-! ## The samples -/

theorem samplesFrom_getElem? (m : Mapping) (s : Aggregate) (hz : Int) (fid lid : Nat)
    (ks : List GoString) (j : Nat) (key : GoString) (h : ks[j]? = some key) :
    (samplesFrom m s hz fid lid ks)[j]?
      = some { Value := [s.get key, wrap64 (Int.tdiv (1000 * 1000 * 1000) hz * s.get key)]
               Location := (locationsFrom m
                 (advance fid ((ks.take j).flatMap (fun k => Split k 59)).length)
                 (advance lid ((ks.take j).flatMap (fun k => Split k 59)).length)
                 (Split key 59)).reverse } := by
  induction ks generalizing fid lid j with
  | nil => simp at h
  | cons k ks ih =>
    cases j with
    | zero =>
      simp only [List.getElem?_cons_zero, Option.some.injEq] at h
      subst h
      simp [samplesFrom, advance_zero]
    | succ j =>
      simp only [List.getElem?_cons_succ] at h
      simp only [samplesFrom, List.getElem?_cons_succ, List.take_succ_cons, List.flatMap_cons,
        List.length_append, advance_add]
      exact ih _ _ j h

theorem locationsFrom_segment (m : Mapping) (fid lid : Nat) (ks : List GoString) (j : Nat)
    (key : GoString) (h : ks[j]? = some key) :
    ((locationsFrom m fid lid (ks.flatMap (fun k => Split k 59))).drop
        ((ks.take j).flatMap (fun k => Split k 59)).length).take (Split key 59).length
      = locationsFrom m
          (advance fid ((ks.take j).flatMap (fun k => Split k 59)).length)
          (advance lid ((ks.take j).flatMap (fun k => Split k 59)).length)
          (Split key 59) := by
  have hsplit : ks = ks.take j ++ key :: ks.drop (j + 1) := by
    obtain ⟨hlt, hk⟩ := List.getElem?_eq_some.1 h
    rw [← hk, List.getElem_cons_drop, List.take_append_drop]
  have hflat : ks.flatMap (fun k => Split k 59)
      = (ks.take j).flatMap (fun k => Split k 59)
        ++ (Split key 59 ++ (ks.drop (j + 1)).flatMap (fun k => Split k 59)) := by
    conv_lhs => rw [hsplit]
    rw [List.flatMap_append, List.flatMap_cons]
  rw [hflat, locationsFrom_append, locationsFrom_append,
    List.drop_left' (locationsFrom_length _ _ _ _),
    List.take_left' (locationsFrom_length _ _ _ _)]

/-- C5: every profile `toPprof` returns has as `Period` the truncating
quotient `1000000000 / hz`, and each of its samples has two values with
`Value[1] = Value[0] * Period` in 64-bit arithmetic, hence exactly when the
product does not overflow; and `toPprof` returns a profile whenever the
frequency is not zero and the keys parse. -/
theorem period_and_sample_time {σ τ : Type} (env : Env σ τ) (s : Aggregate) (hz : Int)
    (startTime endTime : τ) :
    (hz ≠ 0 → KeysParse s → ∃ p, toPprof env s hz startTime endTime = .ok p)
      ∧ ∀ p, toPprof env s hz startTime endTime = .ok p →
          p.Period = Int.tdiv 1000000000 hz
            ∧ ∀ x ∈ p.Sample, ∃ v0 v1, x.Value = [v0, v1] ∧ v1 = wrap64 (v0 * p.Period)
                ∧ (-(2 ^ 63) ≤ v0 * p.Period → v0 * p.Period < 2 ^ 63 → v1 = v0 * p.Period) := by
  refine ⟨fun hhz hk => ⟨_, toPprof_ok env s hz startTime endTime hhz hk⟩, ?_⟩
  intro p hp
  obtain ⟨_, _, rfl⟩ := (toPprof_ok_iff env s hz startTime endTime p).1 hp
  refine ⟨rfl, ?_⟩
  intro x hx
  obtain ⟨k, _, hv⟩ := mem_samplesFrom _ _ _ _ _ _ x hx
  refine ⟨_, _, hv, ?_, ?_⟩
  · simp only [profileOf, header]
    rw [Int.mul_comm]
  · intro h1 h2
    simp only [profileOf, header] at h1 h2 ⊢
    rw [Int.mul_comm, wrap64]
    have h3 : (s.get k * Int.tdiv 1000000000 hz + 2 ^ 63) % 2 ^ 64
        = s.get k * Int.tdiv 1000000000 hz + 2 ^ 63 :=
      Int.emod_eq_of_lt (by omega) (by omega)
    rw [h3]
    omega

/-- C5 on the three stacks at 100 Hz: the period is 10000000 ns. -/
theorem period_and_sample_time_witness :
    ∃ p, toPprof bufferEnv threeStacks 100 0 5 = .ok p ∧ p.Period = 10000000
      ∧ ∀ x ∈ p.Sample, ∃ v0 v1, x.Value = [v0, v1] ∧ v1 = wrap64 (v0 * p.Period) := by
  obtain ⟨hex, hall⟩ := period_and_sample_time bufferEnv threeStacks 100 0 5
  obtain ⟨p, hp⟩ := hex (by decide) (by decide)
  obtain ⟨hper, hv⟩ := hall p hp
  refine ⟨p, hp, by rw [hper]; decide, fun x hx => ?_⟩
  obtain ⟨v0, v1, h1, h2, _⟩ := hv x hx
  exact ⟨v0, v1, h1, h2⟩

/-- C6: every profile `toPprof` returns has one sample per sorted key, and the
sample of a key with the frame tokens `t_1 .. t_N` has exactly `N` locations,
which are the `N` entries the key appended to the `Location` table, reversed:
location `i` (from 0) is the one made for the token at position `N - 1 - i`
(from 0), so the leaf comes first and the root last; and `toPprof` returns a
profile whenever the frequency is not zero and the keys parse. -/
theorem sample_locations_reversed {σ τ : Type} (env : Env σ τ) (s : Aggregate) (hz : Int)
    (startTime endTime : τ) :
    (hz ≠ 0 → KeysParse s → ∃ p, toPprof env s hz startTime endTime = .ok p)
      ∧ ∀ p, toPprof env s hz startTime endTime = .ok p →
          p.Sample.length = (sortedKeys s).length
            ∧ ∀ j key, (sortedKeys s)[j]? = some key →
                ∃ x, p.Sample[j]? = some x
                  ∧ x.Location.length = (Split key 59).length
                  ∧ x.Location
                      = ((p.Location.drop (tokensBefore s j)).take (Split key 59).length).reverse
                  ∧ x.Location.map Location.frames
                      = ((Split key 59).map (fun t => [frameOf t])).reverse
                  ∧ ∀ i, i < (Split key 59).length →
                      x.Location[i]?
                          = p.Location[tokensBefore s j + ((Split key 59).length - 1 - i)]?
                        ∧ (x.Location[i]?).map Location.frames
                            = ((Split key 59)[(Split key 59).length - 1 - i]?).map
                                (fun t => [frameOf t]) := by
  refine ⟨fun hhz hk => ⟨_, toPprof_ok env s hz startTime endTime hhz hk⟩, ?_⟩
  intro p hp
  obtain ⟨_, _, rfl⟩ := (toPprof_ok_iff env s hz startTime endTime p).1 hp
  refine ⟨?_, ?_⟩
  · simp only [profileOf, samplesFrom_length]
  · intro j key hj
    have hseg := locationsFrom_segment theMapping 1 1 (sortedKeys s) j key hj
    refine ⟨_, samplesFrom_getElem? theMapping s hz 1 1 (sortedKeys s) j key hj, ?_, ?_, ?_, ?_⟩
    · simp only [List.length_reverse, locationsFrom_length]
    · simp only [profileOf, tokens, tokensBefore, hseg]
    · simp only [List.map_reverse, locationsFrom_frames]
    · intro i hi
      have hlen := locationsFrom_length theMapping
        (advance 1 (((sortedKeys s).take j).flatMap (fun k => Split k 59)).length)
        (advance 1 (((sortedKeys s).take j).flatMap (fun k => Split k 59)).length)
        (Split key 59)
      constructor
      · simp only []
        rw [List.getElem?_reverse (by rw [hlen]; exact hi), hlen, ← hseg, List.getElem?_take,
          if_pos (by omega), List.getElem?_drop]
        rfl
      · simp only []
        rw [List.getElem?_reverse (by rw [hlen]; exact hi), hlen, ← List.getElem?_map,
          locationsFrom_frames, List.getElem?_map]

/-- C6 on the three stacks: the sample of the first sorted key
`init:3:i.go;main:1:m.go;run:7:r.go` lists the frames `run`, `main`, `init`,
leaf first. -/
theorem sample_locations_reversed_witness :
    ∃ p x, toPprof bufferEnv threeStacks 100 0 5 = .ok p ∧ p.Sample[0]? = some x
      ∧ x.Location.map Location.frames
          = [[(ascii "run", 7, ascii "r.go")], [(ascii "main", 1, ascii "m.go")],
             [(ascii "init", 3, ascii "i.go")]] := by
  obtain ⟨hex, hall⟩ := sample_locations_reversed bufferEnv threeStacks 100 0 5
  obtain ⟨p, hp⟩ := hex (by decide) (by decide)
  obtain ⟨x, hx, _, _, hfr, _⟩ :=
    (hall p hp).2 0 (ascii "init:3:i.go;main:1:m.go;run:7:r.go") (by decide)
  exact ⟨p, x, hp, hx, hfr.trans (by decide)⟩

/-- C7: in every profile `toPprof` returns, the `Function` table and the
`Location` table both have as many entries as there are frame tokens in all
keys together, and the names and file names in the `Function` table are those
of the tokens, occurrence by occurrence; and `toPprof` returns a profile
whenever the frequency is not zero and the keys parse. -/
theorem tables_length {σ τ : Type} (env : Env σ τ) (s : Aggregate) (hz : Int)
    (startTime endTime : τ) :
    (hz ≠ 0 → KeysParse s → ∃ p, toPprof env s hz startTime endTime = .ok p)
      ∧ ∀ p, toPprof env s hz startTime endTime = .ok p →
          p.Function.length = tokenCount s ∧ p.Location.length = tokenCount s
            ∧ p.Function.map (fun f => (f.Name, f.Filename))
                = (tokens s).map (fun t => (part t 0, part t 2)) := by
  refine ⟨fun hhz hk => ⟨_, toPprof_ok env s hz startTime endTime hhz hk⟩, ?_⟩
  intro p hp
  obtain ⟨_, _, rfl⟩ := (toPprof_ok_iff env s hz startTime endTime p).1 hp
  refine ⟨?_, ?_, ?_⟩
  · simp only [profileOf, functionsFrom_length, tokens_length]
  · simp only [profileOf, locationsFrom_length, tokens_length]
  · exact functionsFrom_names 1 (tokens s)

/-- C7 on the three stacks: six frame tokens, six functions and six locations,
although `main` occurs in all three keys. -/
theorem tables_length_witness :
    ∃ p, toPprof bufferEnv threeStacks 100 0 5 = .ok p
      ∧ p.Function.length = 6 ∧ p.Location.length = 6 := by
  obtain ⟨hex, hall⟩ := tables_length bufferEnv threeStacks 100 0 5
  obtain ⟨p, hp⟩ := hex (by decide) (by decide)
  obtain ⟨hf, hl, _⟩ := hall p hp
  exact ⟨p, hp, hf.trans (by decide), hl.trans (by decide)⟩

/-- C8: in every profile `toPprof` returns for an aggregate with fewer than
`2 ^ 64` frame tokens, the `k`-th entry (from 0) of the `Function` table and
of the `Location` table has ID `k + 1`, and the `k`-th location has exactly
one line, whose function is the `k`-th function; and `toPprof` returns a
profile whenever the frequency is not zero and the keys parse. -/
theorem table_ids {σ τ : Type} (env : Env σ τ) (s : Aggregate) (hz : Int)
    (startTime endTime : τ) (hn : tokenCount s < 2 ^ 64) :
    (hz ≠ 0 → KeysParse s → ∃ p, toPprof env s hz startTime endTime = .ok p)
      ∧ ∀ p, toPprof env s hz startTime endTime = .ok p →
          p.Location.length = p.Function.length
            ∧ (∀ k f, p.Function[k]? = some f → f.ID = k + 1)
            ∧ (∀ k l, p.Location[k]? = some l →
                l.ID = k + 1 ∧ ∃ f line, p.Function[k]? = some f
                  ∧ l.Line = [{ Function := f, Line := line }]) := by
  refine ⟨fun hhz hk => ⟨_, toPprof_ok env s hz startTime endTime hhz hk⟩, ?_⟩
  intro p hp
  obtain ⟨_, _, rfl⟩ := (toPprof_ok_iff env s hz startTime endTime p).1 hp
  refine ⟨?_, ?_, ?_⟩
  · simp only [profileOf, functionsFrom_length, locationsFrom_length]
  · intro k f hf
    simp only [profileOf, functionsFrom_getElem?] at hf
    rcases ht : (tokens s)[k]? with _ | t
    · simp [ht] at hf
    · have hlt : k < (tokens s).length := (List.getElem?_eq_some.1 ht).1
      rw [tokens_length] at hlt
      simp only [ht, Option.map_some', Option.some.injEq] at hf
      rw [← hf, functionOf, advance_eq 1 k (by omega)]
      exact Nat.add_comm 1 k
  · intro k l hl
    simp only [profileOf, locationsFrom_getElem?] at hl
    rcases ht : (tokens s)[k]? with _ | t
    · simp [ht] at hl
    · have hlt : k < (tokens s).length := (List.getElem?_eq_some.1 ht).1
      rw [tokens_length] at hlt
      simp only [ht, Option.map_some', Option.some.injEq] at hl
      refine ⟨?_, functionOf (advance 1 k) t, (ParseInt (part t 1)).1, ?_, ?_⟩
      · rw [← hl, locationOf, advance_eq 1 k (by omega)]
        exact Nat.add_comm 1 k
      · simp only [profileOf, functionsFrom_getElem?, ht, Option.map_some']
      · rw [← hl, locationOf]

/-- C8 on the three stacks: the six functions and the six locations carry the
IDs 1 to 6 in table order. -/
theorem table_ids_witness :
    ∃ p, toPprof bufferEnv threeStacks 100 0 5 = .ok p
      ∧ (∀ k f, p.Function[k]? = some f → f.ID = k + 1)
      ∧ (∀ k l, p.Location[k]? = some l → l.ID = k + 1) := by
  obtain ⟨hex, hall⟩ := table_ids bufferEnv threeStacks 100 0 5 (by decide)
  obtain ⟨p, hp⟩ := hex (by decide) (by decide)
  obtain ⟨_, hf, hl⟩ := hall p hp
  exact ⟨p, hp, hf, fun k l h => (hl k l h).1⟩

/-- C9: in every profile `toPprof` returns for an aggregate (a list with
pairwise distinct keys), every sample has two values and the first values of
all samples add up to the sum of the counts of the aggregate; and `toPprof`
returns a profile whenever the frequency is not zero and the keys parse. -/
theorem sample_counts_sum {σ τ : Type} (env : Env σ τ) (s : Aggregate) (hz : Int)
    (startTime endTime : τ) (hs : s.WF) :
    (hz ≠ 0 → KeysParse s → ∃ p, toPprof env s hz startTime endTime = .ok p)
      ∧ ∀ p, toPprof env s hz startTime endTime = .ok p →
          (∀ x ∈ p.Sample, x.Value.length = 2)
            ∧ (p.Sample.map (fun x => x.Value.getD 0 0)).sum = (s.map Prod.snd).sum := by
  refine ⟨fun hhz hk => ⟨_, toPprof_ok env s hz startTime endTime hhz hk⟩, ?_⟩
  intro p hp
  obtain ⟨_, _, rfl⟩ := (toPprof_ok_iff env s hz startTime endTime p).1 hp
  refine ⟨?_, ?_⟩
  · intro x hx
    obtain ⟨k, _, hv⟩ := mem_samplesFrom _ _ _ _ _ _ x hx
    rw [hv]
    rfl
  · simp only [profileOf, samplesFrom_counts]
    rw [← sum_get_keys s hs]
    exact ((sortedKeys_perm s).map _).sum_eq

/-- C9 on the three stacks: the counts 4, 2 and 5 add up to 11. -/
theorem sample_counts_sum_witness :
    ∃ p, toPprof bufferEnv threeStacks 100 0 5 = .ok p
      ∧ (p.Sample.map (fun x => x.Value.getD 0 0)).sum = 11 := by
  obtain ⟨hex, hall⟩ := sample_counts_sum bufferEnv threeStacks 100 0 5 (by decide)
  obtain ⟨p, hp⟩ := hex (by decide) (by decide)
  obtain ⟨_, hsum⟩ := hall p hp
  exact ⟨p, hp, hsum.trans (by decide)⟩

/-! ## A frame token without a colon -/

/-- C10: on the aggregate whose only key is the frame token `main`, encoding in
the pprof format does not return: it ends in the panic of the index expression
`fl[1]` on a slice of length 1, with the sink untouched. -/
theorem pprof_bare_token_panics :
    writeFormat bufferEnv [] bareToken FormatPprof 100 0 0 = .panicked [] (.indexOutOfRange 1 1) := by
  decide

/-! ## The line number of a frame -/

theorem parseUintLoop_noDigit (s : GoString) (n k i : Nat) (c : Nat) (hn : n < 10 ^ k)
    (hik : i + k ≤ 18) (hc : s[i]? = some c) (hd : ¬ isDigit c) :
    parseUintLoop s n = (0, some .ErrSyntax) := by
  induction s generalizing n k i with
  | nil => simp at hc
  | cons a s ih =>
    rw [parseUintLoop]
    by_cases ha : 48 ≤ a ∧ a ≤ 57
    · rw [if_pos ha]
      cases i with
      | zero =>
        simp only [List.getElem?_cons_zero, Option.some.injEq] at hc
        subst hc
        exact absurd ha hd
      | succ i =>
        simp only [List.getElem?_cons_succ] at hc
        have hk : k ≤ 17 := by omega
        have h18 : 10 ^ k ≤ 10 ^ 17 := Nat.pow_le_pow_right (by norm_num) hk
        have hn2 : n < 100000000000000000 := by
          have : (10 : Nat) ^ 17 = 100000000000000000 := by norm_num
          omega
        have hlt : ¬ n ≥ (2 ^ 64 - 1) / 10 + 1 := by
          have : (2 ^ 64 - 1) / 10 + 1 = 1844674407370955162 := by norm_num
          omega
        rw [if_neg hlt]
        have hmod : (n * 10 + (a - 48)) % 2 ^ 64 = n * 10 + (a - 48) :=
          Nat.mod_eq_of_lt (by
            have : (2 : Nat) ^ 64 = 18446744073709551616 := by norm_num
            omega)
        simp only [hmod]
        have hno : ¬ (n * 10 + (a - 48) < n * 10 ∨ n * 10 + (a - 48) > 2 ^ 64 - 1) := by
          have : (2 : Nat) ^ 64 = 18446744073709551616 := by norm_num
          omega
        rw [if_neg hno]
        refine ih (n * 10 + (a - 48)) (k + 1) i ?_ (by omega) hc
        have : 10 ^ (k + 1) = 10 ^ k * 10 := by ring
        omega
    · rw [if_neg ha]

theorem ParseUint_noNumeral (s : GoString) (h : NoNumeral s) : ParseUint s = (0, some .ErrSyntax) := by
  rcases h with h | ⟨i, c, hi, hc, hd⟩
  · subst h; rfl
  · cases s with
    | nil => simp at hc
    | cons a s => exact parseUintLoop_noDigit (a :: s) 0 0 i c (by norm_num) (by omega) hc hd

theorem ParseInt_unsigned (s : GoString) (h : ParseUint (unsigned s) = (0, some .ErrSyntax)) :
    ParseInt s = (0, some .ErrSyntax) := by
  cases s with
  | nil => rfl
  | cons c rest =>
    rw [unsigned] at h
    simp only [ParseInt, h]

/-- A text that is not the start of a numeral after its optional sign is a
syntax error for `ParseInt`, with value 0. -/
theorem ParseInt_noNumeral (s : GoString) (h : NoNumeral (unsigned s)) :
    ParseInt s = (0, some .ErrSyntax) :=
  ParseInt_unsigned s (ParseUint_noNumeral _ h)

theorem ParseInt_syntax_value (s : GoString) (h : (ParseInt s).2 = some .ErrSyntax) :
    (ParseInt s).1 = 0 := by
  cases s with
  | nil => rfl
  | cons c rest =>
    simp only [ParseInt] at h ⊢
    split at h
    · rfl
    · split_ifs at h <;> simp at h

/-- On a range error `ParseInt` returns the bound on the side of the sign: the
lower bound when the text starts with a minus sign, the upper bound otherwise. -/
theorem ParseInt_range_bound (s : GoString) (h : (ParseInt s).2 = some .ErrRange) :
    (ParseInt s).1 = if s.head? = some 45 then -(2 ^ 63) else 2 ^ 63 - 1 := by
  cases s with
  | nil => simp [ParseInt] at h
  | cons c rest =>
    simp only [ParseInt] at h ⊢
    by_cases hc : c = 45
    · subst hc
      split at h
      · simp at h
      · split_ifs at h ⊢ <;> simp_all
    · split at h
      · simp at h
      · split_ifs at h ⊢ <;> simp_all

/-! ## Numerals -/

theorem digitsValue_concat (a : GoString) (c : Nat) :
    digitsValue (a ++ [c]) = 10 * digitsValue a + (c - 48) := by
  simp [digitsValue, List.foldl_append]

theorem decimal_spec (u : Nat) :
    decimal u ≠ [] ∧ (∀ c ∈ decimal u, isDigit c) ∧ digitsValue (decimal u) = u := by
  induction u using Nat.strongRecOn with
  | _ u ih =>
    by_cases hu : u < 10
    · rw [decimal_small u hu]
      refine ⟨by simp, ?_, ?_⟩
      · intro c hc
        rw [List.mem_singleton] at hc
        subst hc
        unfold isDigit
        omega
      · simp [digitsValue]
    · obtain ⟨_, h2, h3⟩ := ih (u / 10) (by omega)
      rw [decimal_step u (by omega)]
      refine ⟨by simp, ?_, ?_⟩
      · intro c hc
        rcases List.mem_append.1 hc with hc | hc
        · exact h2 c hc
        · rw [List.mem_singleton] at hc
          subst hc
          unfold isDigit
          omega
      · rw [digitsValue_concat, h3]
        omega

theorem parseUintLoop_append (xs ys : GoString) (n m : Nat)
    (h : parseUintLoop xs n = (m, none)) :
    parseUintLoop (xs ++ ys) n = parseUintLoop ys m := by
  induction xs generalizing n with
  | nil =>
    simp only [parseUintLoop, Prod.mk.injEq, and_true] at h
    subst h
    rfl
  | cons c xs ih =>
    rw [List.cons_append, parseUintLoop]
    rw [parseUintLoop] at h
    by_cases h1 : 48 ≤ c ∧ c ≤ 57
    · rw [if_pos h1] at h ⊢
      by_cases h2 : n ≥ (2 ^ 64 - 1) / 10 + 1
      · rw [if_pos h2] at h
        cases h
      · rw [if_neg h2] at h ⊢
        simp only [] at h ⊢
        by_cases h3 : (n * 10 + (c - 48)) % 2 ^ 64 < n * 10
            ∨ (n * 10 + (c - 48)) % 2 ^ 64 > 2 ^ 64 - 1
        · rw [if_pos h3] at h
          cases h
        · rw [if_neg h3] at h ⊢
          exact ih _ h
    · rw [if_neg h1] at h
      cases h

theorem parseUintLoop_decimal (u : Nat) (hu : u < 2 ^ 64) :
    parseUintLoop (decimal u) 0 = (u, none) := by
  induction u using Nat.strongRecOn with
  | _ u ih =>
    have h64 : (2 : Nat) ^ 64 = 18446744073709551616 := by norm_num
    have hcut : (2 ^ 64 - 1) / 10 + 1 = 1844674407370955162 := by norm_num
    by_cases h10 : u < 10
    · rw [decimal_small u h10, parseUintLoop]
      have hd : 48 ≤ 48 + u ∧ 48 + u ≤ 57 := by omega
      have hmod : (0 * 10 + (48 + u - 48)) % 2 ^ 64 = u := by
        rw [Nat.mod_eq_of_lt (by omega)]; omega
      simp only [if_pos hd, hmod]
      rw [if_neg (by omega), if_neg (by omega), parseUintLoop]
    · rw [decimal_step u (by omega),
        parseUintLoop_append _ _ 0 (u / 10) (ih (u / 10) (by omega) (by omega)), parseUintLoop]
      have hd : 48 ≤ 48 + u % 10 ∧ 48 + u % 10 ≤ 57 := by omega
      have hmod : (u / 10 * 10 + (48 + u % 10 - 48)) % 2 ^ 64 = u := by
        rw [Nat.mod_eq_of_lt (by omega)]; omega
      simp only [if_pos hd, hmod]
      rw [if_neg (by omega), if_neg (by omega), parseUintLoop]

theorem ParseUint_decimal (u : Nat) (hu : u < 2 ^ 64) : ParseUint (decimal u) = (u, none) := by
  have hne := (decimal_spec u).1
  rcases hd : decimal u with _ | ⟨c, rest⟩
  · exact absurd hd hne
  · rw [ParseUint, ← hd]
    exact parseUintLoop_decimal u hu

theorem wrap64_of_range (x : Int) (hlo : -(2 ^ 63) ≤ x) (hhi : x < 2 ^ 63) : wrap64 x = x := by
  unfold wrap64
  omega

/-- Reading the text `%d` prints for a 64-bit integer with `ParseInt` gives the
integer back, without error. -/
theorem ParseInt_fmtInt (n : Int) (hlo : -(2 ^ 63) ≤ n) (hhi : n < 2 ^ 63) :
    ParseInt (fmtInt n) = (n, none) := by
  by_cases hn : n < 0
  · rw [fmtInt, if_pos hn, fmtNat_eq]
    have hu : n.natAbs < 2 ^ 64 := by omega
    have hle : ¬ (9223372036854775808 < n.natAbs) := by omega
    have hw : wrap64 (-(wrap64 (n.natAbs : Int))) = n := by
      unfold wrap64
      omega
    have hsign : (if (45 : Nat) = 43 ∨ True then decimal n.natAbs else 45 :: decimal n.natAbs)
        = decimal n.natAbs := by simp
    simp only [ParseInt]
    have hw2 : wrap64 (-(wrap64 |n|)) = n := by
      rw [abs_of_neg hn]
      unfold wrap64
      omega
    rw [hsign, ParseUint_decimal _ hu]
    simp [hle, hw, hw2]
  · rw [fmtInt, if_neg hn, fmtNat_eq]
    have hu : n.toNat < 2 ^ 64 := by omega
    obtain ⟨hne, hdig, _⟩ := decimal_spec n.toNat
    rcases hd : decimal n.toNat with _ | ⟨c, rest⟩
    · exact absurd hd hne
    · have hc : isDigit c := hdig c (by rw [hd]; exact List.mem_cons_self c rest)
      unfold isDigit at hc
      have h43 : ¬ (c = 43 ∨ c = 45) := by omega
      have h45 : c ≠ 45 := by omega
      have hpu := ParseUint_decimal n.toNat hu
      rw [hd] at hpu
      have hlt : ¬ (9223372036854775808 ≤ n.toNat) := by omega
      have hmax : n ⊔ 0 = n := max_eq_left (by omega)
      have hw : wrap64 n = n := wrap64_of_range n hlo hhi
      simp only [ParseInt, if_neg h43, hpu]
      simp [h45, hlt, hmax, hw]

theorem parseUintLoop_append_error (xs ys : GoString) (n v : Nat) (e : NumError)
    (h : parseUintLoop xs n = (v, some e)) :
    parseUintLoop (xs ++ ys) n = (v, some e) := by
  induction xs generalizing n with
  | nil => rw [parseUintLoop] at h; cases h
  | cons c xs ih =>
    rw [List.cons_append, parseUintLoop]
    rw [parseUintLoop] at h
    by_cases h1 : 48 ≤ c ∧ c ≤ 57
    · rw [if_pos h1] at h ⊢
      by_cases h2 : n ≥ (2 ^ 64 - 1) / 10 + 1
      · rw [if_pos h2] at h ⊢
        exact h
      · rw [if_neg h2] at h ⊢
        simp only [] at h ⊢
        by_cases h3 : (n * 10 + (c - 48)) % 2 ^ 64 < n * 10
            ∨ (n * 10 + (c - 48)) % 2 ^ 64 > 2 ^ 64 - 1
        · rw [if_pos h3] at h ⊢
          exact h
        · rw [if_neg h3] at h ⊢
          exact ih _ h
    · rw [if_neg h1] at h ⊢
      exact h

theorem parseUintLoop_decimal_overflow (u : Nat) (hu : 2 ^ 64 ≤ u) :
    parseUintLoop (decimal u) 0 = (2 ^ 64 - 1, some .ErrRange) := by
  induction u using Nat.strongRecOn with
  | _ u ih =>
    have h64 : (2 : Nat) ^ 64 = 18446744073709551616 := by norm_num
    have hcut : (2 ^ 64 - 1) / 10 + 1 = 1844674407370955162 := by norm_num
    rw [decimal_step u (by omega)]
    by_cases hq : 2 ^ 64 ≤ u / 10
    · exact parseUintLoop_append_error _ _ 0 _ _ (ih (u / 10) (by omega) hq)
    · rw [parseUintLoop_append _ _ 0 (u / 10) (parseUintLoop_decimal (u / 10) (by omega)),
        parseUintLoop]
      have hd : 48 ≤ 48 + u % 10 ∧ 48 + u % 10 ≤ 57 := by omega
      rw [if_pos hd]
      by_cases hc : u / 10 ≥ (2 ^ 64 - 1) / 10 + 1
      · rw [if_pos hc]
      · rw [if_neg hc]
        simp only []
        have hq2 : u / 10 = 1844674407370955161 := by omega
        have hmod : (u / 10 * 10 + (48 + u % 10 - 48)) % 2 ^ 64 < u / 10 * 10 := by
          have h1 : u / 10 * 10 + (48 + u % 10 - 48) = u := by omega
          rw [h1, h64]
          omega
        rw [if_pos (Or.inl hmod)]

theorem ParseUint_decimal_overflow (u : Nat) (hu : 2 ^ 64 ≤ u) :
    ParseUint (decimal u) = (2 ^ 64 - 1, some .ErrRange) := by
  have hne := (decimal_spec u).1
  rcases hd : decimal u with _ | ⟨c, rest⟩
  · exact absurd hd hne
  · rw [ParseUint, ← hd]
    exact parseUintLoop_decimal_overflow u hu

/-- The numeral of a number from `2 ^ 63` on, with or without a plus sign, is a
range error for `ParseInt` with the upper bound as value; the numeral of a
number above `2 ^ 63` after a minus sign is one with the lower bound. -/
theorem ParseInt_decimal_out_of_range (u : Nat) :
    (2 ^ 63 ≤ u → ParseInt (decimal u) = (2 ^ 63 - 1, some .ErrRange)
        ∧ ParseInt (43 :: decimal u) = (2 ^ 63 - 1, some .ErrRange))
      ∧ (2 ^ 63 < u → ParseInt (45 :: decimal u) = (-(2 ^ 63), some .ErrRange)) := by
  have hcases : ∃ v e, ParseUint (decimal u) = (v, e) ∧ e ≠ some .ErrSyntax
      ∧ (2 ^ 63 ≤ u → 9223372036854775808 ≤ v) ∧ (2 ^ 63 < u → 9223372036854775808 < v) := by
    by_cases hu : u < 2 ^ 64
    · exact ⟨u, none, ParseUint_decimal u hu, by simp, fun h => by omega, fun h => by omega⟩
    · refine ⟨2 ^ 64 - 1, some .ErrRange, ParseUint_decimal_overflow u (by omega), by simp,
        fun _ => by norm_num, fun _ => by norm_num⟩
  obtain ⟨v, e, hpu, hne, hv1, hv2⟩ := hcases
  obtain ⟨hnil, hdig, _⟩ := decimal_spec u
  refine ⟨fun h => ⟨?_, ?_⟩, fun h => ?_⟩
  · rcases hd : decimal u with _ | ⟨c, rest⟩
    · exact absurd hd hnil
    · have hc : isDigit c := hdig c (by rw [hd]; exact List.mem_cons_self c rest)
      unfold isDigit at hc
      have h43 : ¬ (c = 43 ∨ c = 45) := by omega
      have h45 : c ≠ 45 := by omega
      rw [hd] at hpu
      have hv := hv1 h
      simp only [ParseInt, if_neg h43, hpu]
      rcases e with _ | e
      · simp [h45, hv]
      · cases e
        · exact absurd rfl hne
        · simp [h45, hv]
  · have hv := hv1 h
    simp only [ParseInt, true_or, if_true]
    rw [hpu]
    rcases e with _ | e
    · simp [hv]
    · cases e
      · exact absurd rfl hne
      · simp [hv]
  · have hv := hv2 h
    simp only [ParseInt, or_true, if_true]
    rw [hpu]
    rcases e with _ | e
    · simp [hv]
    · cases e
      · exact absurd rfl hne
      · simp [hv]

/-- C11, amended: for every frame token with at least two colons the loop body
reports no error and makes a location with one line, whose number is the
value `ParseInt` returns for the second part: 0 when `ParseInt` reports a
syntax error, which it does whenever the part, after an optional sign, is
empty or has a byte that is not a digit among its first 19 bytes, and the
nearest bound when it reports a range error, that is `-2 ^ 63` when the part
starts with a minus sign and `2 ^ 63 - 1` otherwise; the numeral of a number
from `2 ^ 63` on, with or without a plus sign, is such a range error, and so
is the numeral of a number above `2 ^ 63` after a minus sign. -/
theorem line_of_failed_number (m : Mapping) (t : GoString) (ht : Parses t) (b : Builder)
    (sample : Sample) :
    ∃ b1 loc f line,
      frameStep m t b sample = .ok (b1, { sample with Location := loc :: sample.Location })
        ∧ b1.p.Location = b.p.Location ++ [loc]
        ∧ loc.Line = [{ Function := f, Line := line }]
        ∧ line = (ParseInt (part t 1)).1
        ∧ ((ParseInt (part t 1)).2 = some .ErrSyntax → line = 0)
        ∧ (NoNumeral (unsigned (part t 1)) →
            (ParseInt (part t 1)).2 = some .ErrSyntax ∧ line = 0)
        ∧ ((ParseInt (part t 1)).2 = some .ErrRange →
            line = if (part t 1).head? = some 45 then -(2 ^ 63) else 2 ^ 63 - 1)
        ∧ (∀ u : Nat, 2 ^ 63 ≤ u → part t 1 = decimal u ∨ part t 1 = 43 :: decimal u →
            (ParseInt (part t 1)).2 = some .ErrRange ∧ line = 2 ^ 63 - 1)
        ∧ (∀ u : Nat, 2 ^ 63 < u → part t 1 = 45 :: decimal u →
            (ParseInt (part t 1)).2 = some .ErrRange ∧ line = -(2 ^ 63)) := by
  refine ⟨_, _, _, _, frameStep_ok m t ht b sample, rfl, rfl, rfl, ?_, ?_, ?_, ?_, ?_⟩
  · exact ParseInt_syntax_value _
  · intro h
    rw [ParseInt_noNumeral _ h]
    exact ⟨rfl, rfl⟩
  · exact ParseInt_range_bound _
  · intro u hu hpart
    rcases hpart with hpart | hpart
    · rw [hpart, ((ParseInt_decimal_out_of_range u).1 hu).1]
      exact ⟨rfl, rfl⟩
    · rw [hpart, ((ParseInt_decimal_out_of_range u).1 hu).2]
      exact ⟨rfl, rfl⟩
  · intro u hu hpart
    rw [hpart, (ParseInt_decimal_out_of_range u).2 hu]
    exact ⟨rfl, rfl⟩

/-- C11, scenario D: the frame token `foo:abc:bar.go` gets the line number 0. -/
theorem line_of_failed_number_witness :
    ∃ b1 loc f, frameStep theMapping (ascii "foo:abc:bar.go")
          { functionID := 1, locationID := 1, p := header bufferEnv 100 0 0 }
          { Value := [1, 10000000], Location := [] }
        = .ok (b1, { Value := [1, 10000000], Location := [loc] })
      ∧ loc.Line = [{ Function := f, Line := 0 }] := by
  obtain ⟨b1, loc, f, line, h1, _, h3, _, _, h6, _⟩ :=
    line_of_failed_number theMapping (ascii "foo:abc:bar.go") (by decide)
      { functionID := 1, locationID := 1, p := header bufferEnv 100 0 0 }
      { Value := [1, 10000000], Location := [] }
  have h0 : line = 0 := (h6 (Or.inr ⟨0, 97, by decide, by decide, by decide⟩)).2
  rw [h0] at h3
  exact ⟨b1, loc, f, h1, h3⟩

/-- C11 fails for a line number beyond 64 bits: the second part of
`foo:99999999999999999999:bar.go` does not parse (range error), and the
location gets the line number `2 ^ 63 - 1`, not 0. -/
theorem line_of_failed_number_counterexample :
    (ParseInt (ascii "99999999999999999999")).2 = some .ErrRange
      ∧ ∃ p, toPprof bufferEnv hugeLine 100 0 0 = .ok p
          ∧ p.Location.map (fun l => l.Line.map (fun x => x.Line)) = [[9223372036854775807]]
          ∧ p.Location.map (fun l => l.Line.map (fun x => x.Line)) ≠ [[0]] :=
  ⟨by decide, profileOf bufferEnv hugeLine 100 0 0,
    toPprof_ok bufferEnv hugeLine 100 0 0 (by decide) (by decide), by decide, by decide⟩

/-! ## A frame token with one colon -/

/-- C12: on the aggregate whose only key is the frame token `foo:10`, encoding
in the pprof format does not return a frame with an empty file name: it ends
in the panic of the index expression `fl[2]` on a slice of length 2, with the
sink untouched. -/
theorem pprof_one_colon_panics :
    writeFormat bufferEnv [] oneColon FormatPprof 100 0 0 = .panicked [] (.indexOutOfRange 2 2) := by
  decide

/-! ## The parts of a frame token -/

theorem cut_append (f rest : GoString) (sep : Nat) (hf : sep ∉ f) :
    cut (f ++ sep :: rest) sep = some (f, rest) := by
  induction f with
  | nil => simp [cut]
  | cons a f ih =>
    have ha : a ≠ sep := fun e => hf (e ▸ List.mem_cons_self a f)
    have hf2 : sep ∉ f := fun h => hf (List.mem_cons_of_mem a h)
    simp [cut, ha, ih hf2]

theorem SplitN_three (f l r : GoString) (hf : 58 ∉ f) (hl : 58 ∉ l) :
    SplitN (f ++ 58 :: (l ++ 58 :: r)) 58 3 = [f, l, r] := by
  simp [SplitN, cut_append f _ 58 hf, cut_append l _ 58 hl]

theorem Split_of_not_mem (t : GoString) (sep : Nat) (h : sep ∉ t) : Split t sep = [t] := by
  induction t with
  | nil => rfl
  | cons a t ih =>
    have ha : a ≠ sep := fun e => h (e ▸ List.mem_cons_self a t)
    have ht : sep ∉ t := fun hm => h (List.mem_cons_of_mem a hm)
    simp [Split, ha, ih ht]

/-- C13: for a frame token `f:l:r` in which `f` and `l` have no colon, the loop
body makes the function with name `f` and file name `r`, whatever colons `r`
contains, and the location whose line is `l` read by `ParseInt`, which is `n`
when `l` is the decimal numeral of a 64-bit integer `n`; and when the token has
no semicolon and is the only key, these are the one function and the one
location of the profile `toPprof` returns. -/
theorem frame_of_three_parts (f l r : GoString) (hf : 58 ∉ f) (hl : 58 ∉ l) :
    (∀ (m : Mapping) (b : Builder) (sample : Sample),
        ∃ b1 loc,
          frameStep m (f ++ 58 :: (l ++ 58 :: r)) b sample
              = .ok (b1, { sample with Location := loc :: sample.Location })
            ∧ b1.p.Function
                = b.p.Function ++ [{ ID := b.functionID, Name := f, Filename := r }]
            ∧ b1.p.Location = b.p.Location ++ [loc]
            ∧ loc.Line = [{ Function := { ID := b.functionID, Name := f, Filename := r },
                            Line := (ParseInt l).1 }])
      ∧ (∀ n : Int, -(2 ^ 63) ≤ n → n < 2 ^ 63 → l = fmtInt n → ParseInt l = (n, none))
      ∧ ∀ {σ τ : Type} (env : Env σ τ) (c hz : Int) (startTime endTime : τ),
          59 ∉ f ++ 58 :: (l ++ 58 :: r) → hz ≠ 0 →
            ∃ p, toPprof env [(f ++ 58 :: (l ++ 58 :: r), c)] hz startTime endTime = .ok p
              ∧ p.Function = [{ ID := 1, Name := f, Filename := r }]
              ∧ p.Location
                  = [{ ID := 1, Mapping := theMapping
                       Line := [{ Function := { ID := 1, Name := f, Filename := r },
                                  Line := (ParseInt l).1 }] }] := by
  have h3 := SplitN_three f l r hf hl
  have hp : Parses (f ++ 58 :: (l ++ 58 :: r)) := by rw [Parses, h3]; rfl
  have hp0 : part (f ++ 58 :: (l ++ 58 :: r)) 0 = f := by rw [part, h3]; rfl
  have hp1 : part (f ++ 58 :: (l ++ 58 :: r)) 1 = l := by rw [part, h3]; rfl
  have hp2 : part (f ++ 58 :: (l ++ 58 :: r)) 2 = r := by rw [part, h3]; rfl
  refine ⟨?_, ?_, ?_⟩
  · intro m b sample
    refine ⟨_, _, frameStep_ok m _ hp b sample, ?_, rfl, ?_⟩
    · simp only [functionOf, hp0, hp2]
    · simp only [locationOf, functionOf, hp0, hp1, hp2]
  · intro n hlo hhi hn
    rw [hn]
    exact ParseInt_fmtInt n hlo hhi
  · intro σ τ env c hz startTime endTime hsemi hhz
    have hsplit := Split_of_not_mem _ 59 hsemi
    have hk : KeysParse [(f ++ 58 :: (l ++ 58 :: r), c)] := by
      intro k hk t ht
      simp only [Aggregate.keys, List.map_cons, List.map_nil, List.mem_singleton] at hk
      subst hk
      rw [hsplit, List.mem_singleton] at ht
      subst ht
      exact hp
    have htok : tokens [(f ++ 58 :: (l ++ 58 :: r), c)] = [f ++ 58 :: (l ++ 58 :: r)] := by
      simp [tokens, sortedKeys, sortStrings, Aggregate.keys, hsplit]
    refine ⟨_, toPprof_ok env _ hz startTime endTime hhz hk, ?_, ?_⟩
    · simp only [profileOf, htok, functionsFrom, functionOf, hp0, hp2]
    · simp only [profileOf, htok, locationsFrom, locationOf, functionOf, hp0, hp1, hp2]

/-- C13 on the token `foo:10:C:/src/bar.go`: the name is `foo`, the line 10 and
the file name `C:/src/bar.go` with its colon. -/
theorem frame_of_three_parts_witness :
    ∃ p, toPprof bufferEnv [(ascii "foo:10:C:/src/bar.go", 2)] 100 0 0 = .ok p
      ∧ p.Function = [{ ID := 1, Name := ascii "foo", Filename := ascii "C:/src/bar.go" }]
      ∧ p.Location.map (fun x => x.Line.map (fun y => y.Line)) = [[10]] := by
  obtain ⟨p, hp, hf, hl⟩ :=
    (frame_of_three_parts (ascii "foo") (ascii "10") (ascii "C:/src/bar.go")
      (by decide) (by decide)).2.2 bufferEnv 2 100 0 0 (by decide) (by decide)
  exact ⟨p, hp, hf, by rw [hl]; decide⟩

/-! ## Scenario B -/

/-- C14, amended: for the aggregate with the one key
`main:1:main.go;foo:10:bar.go` and count 3 at 100 Hz, `toPprof` returns a
profile with period 10000000, one sample with the values 3 and 30000000, the
functions and locations with IDs 1 (`main`) and 2 (`foo`), and the sample's
locations are the location 2, then the location 1. -/
theorem scenarioB_profile {σ τ : Type} (env : Env σ τ) (startTime endTime : τ) :
    ∃ p, toPprof env scenarioB 100 startTime endTime = .ok p
      ∧ p.Period = 10000000
      ∧ p.Sample.map (fun x => x.Value) = [[3, 30000000]]
      ∧ p.Function.map (fun f => (f.ID, f.Name)) = [(1, ascii "main"), (2, ascii "foo")]
      ∧ p.Location.map (fun l => (l.ID, l.Line.map (fun x => (x.Function.ID, x.Function.Name))))
          = [(1, [(1, ascii "main")]), (2, [(2, ascii "foo")])]
      ∧ p.Sample.map (fun x => x.Location.map (fun l => l.ID)) = [[2, 1]] :=
  ⟨profileOf env scenarioB 100 startTime endTime,
    toPprof_ok env scenarioB 100 startTime endTime (by decide) (by decide),
    rfl, rfl, rfl, rfl, rfl⟩

/-- C14 fails as stated: on the aggregate with the key `main;foo:10:bar.go` of
scenario A and B, `toPprof` returns no profile; the frame token `main` has no
colon and the index expression `fl[1]` panics. -/
theorem scenarioB_profile_counterexample :
    toPprof bufferEnv scenarioA 100 0 0 = .error (.indexOutOfRange 1 1) := by
  rfl

/-! ## A failing sink -/

theorem writeFoldedLoop_first_failure {σ τ : Type} (env : Env σ τ) (s : Aggregate)
    (ks : List GoString) (w : σ) (k : Nat) (key e : GoString) (hkey : ks[k]? = some key)
    (hok : ∀ i key1, i < k → ks[i]? = some key1 →
      (env.Write (afterWrites env w ((ks.take i).map (fun a => foldedLine a (s.get a))))
        (foldedLine key1 (s.get key1))).2 = none)
    (hfail : (env.Write (afterWrites env w ((ks.take k).map (fun a => foldedLine a (s.get a))))
        (foldedLine key (s.get key))).2 = some e) :
    writeFoldedLoop env s ks w
      = ((env.Write (afterWrites env w ((ks.take k).map (fun a => foldedLine a (s.get a))))
          (foldedLine key (s.get key))).1, some (.external e)) := by
  induction ks generalizing w k with
  | nil => simp at hkey
  | cons a ks ih =>
    rw [writeFoldedLoop]
    cases k with
    | zero =>
      simp only [List.getElem?_cons_zero, Option.some.injEq] at hkey
      subst hkey
      simp only [List.take_zero, List.map_nil, afterWrites, List.foldl_nil] at hfail ⊢
      rcases hw : env.Write w (foldedLine a (s.get a)) with ⟨w1, _ | e1⟩
      · rw [hw] at hfail; cases hfail
      · rw [hw] at hfail
        simp only [Option.some.injEq] at hfail
        subst hfail
        rfl
    | succ k =>
      simp only [List.getElem?_cons_succ] at hkey
      have h0 := hok 0 a (Nat.succ_pos k) (by simp)
      simp only [List.take_zero, List.map_nil, afterWrites, List.foldl_nil] at h0
      rcases hw : env.Write w (foldedLine a (s.get a)) with ⟨w1, _ | e1⟩
      · simp only []
        have hstep : ∀ i, afterWrites env w
            (((a :: ks).take (i + 1)).map (fun a => foldedLine a (s.get a)))
            = afterWrites env w1 ((ks.take i).map (fun a => foldedLine a (s.get a))) := by
          intro i
          simp only [List.take_succ_cons, List.map_cons, afterWrites, List.foldl_cons, hw]
        rw [hstep k] at hfail ⊢
        refine ih w1 k hkey ?_ hfail
        intro i key1 hi hk1
        have := hok (i + 1) key1 (by omega) (by simpa using hk1)
        rwa [hstep i] at this
      · rw [hw] at h0; cases h0

theorem afterWrites_failingEnv (k : Nat) (e : GoString) (d : Nat) (texts : List GoString)
    (n : Nat) (b : GoString) (h : n + texts.length ≤ k) :
    afterWrites (failingEnv k e d) (n, b) texts = (n + texts.length, b ++ texts.flatten) := by
  induction texts generalizing n b with
  | nil => simp [afterWrites]
  | cons text texts ih =>
    have hn : n ≠ k := by simp only [List.length_cons] at h; omega
    have hstep : afterWrites (failingEnv k e d) (n, b) (text :: texts)
        = afterWrites (failingEnv k e d) (n + 1, b ++ text) texts := by
      simp [afterWrites, failingEnv, hn]
    rw [hstep, ih (n + 1) (b ++ text) (by simp only [List.length_cons] at h; omega)]
    simp only [List.length_cons, List.flatten_cons, List.append_assoc]
    congr 1
    omega

/-- C15: when the write of line number `k` (from 0) is the first that fails,
with error `e`, `writeFolded` returns exactly `e` and leaves the sink in the
state the failing write put it in after the `k` lines before it were written:
the lines before stay, and nothing is written after the failure.  On the sink
that counts its calls and keeps its bytes, `k + 1` calls were made and the
bytes are the first `k` lines followed by what the failing call delivered. -/
theorem writeFolded_first_failure (s : Aggregate) (k : Nat) (line e : GoString)
    (hline : (foldedLines s)[k]? = some line) :
    (∀ {σ τ : Type} (env : Env σ τ) (w : σ),
        (∀ i text, i < k → (foldedLines s)[i]? = some text →
          (env.Write (afterWrites env w ((foldedLines s).take i)) text).2 = none) →
        (env.Write (afterWrites env w ((foldedLines s).take k)) line).2 = some e →
        writeFolded env w s
          = ((env.Write (afterWrites env w ((foldedLines s).take k)) line).1,
             some (.external e)))
      ∧ ∀ d : Nat, writeFolded (failingEnv k e d) (0, []) s
          = ((k + 1, ((foldedLines s).take k).flatten ++ line.take d), some (.external e)) := by
  have general : ∀ {σ τ : Type} (env : Env σ τ) (w : σ),
      (∀ i text, i < k → (foldedLines s)[i]? = some text →
        (env.Write (afterWrites env w ((foldedLines s).take i)) text).2 = none) →
      (env.Write (afterWrites env w ((foldedLines s).take k)) line).2 = some e →
      writeFolded env w s
        = ((env.Write (afterWrites env w ((foldedLines s).take k)) line).1,
           some (.external e)) := by
    intro σ τ env w hok hfail
    unfold foldedLines at hline hok hfail ⊢
    simp only [List.getElem?_map, ← List.map_take] at hline hok hfail ⊢
    rcases hkey : (sortedKeys s)[k]? with _ | key
    · rw [hkey] at hline; cases hline
    · rw [hkey] at hline
      simp only [Option.map_some', Option.some.injEq] at hline
      subst hline
      refine writeFoldedLoop_first_failure env s (sortedKeys s) w k key e hkey ?_ hfail
      intro i key1 hi hk1
      exact hok i _ hi (by rw [hk1]; rfl)
  refine ⟨general, ?_⟩
  intro d
  have hk : k < (foldedLines s).length := (List.getElem?_eq_some.1 hline).1
  have hstate : ∀ i, i ≤ k → afterWrites (failingEnv k e d) (0, []) ((foldedLines s).take i)
      = (i, ((foldedLines s).take i).flatten) := by
    intro i hi
    have hlen : ((foldedLines s).take i).length = i := List.length_take_of_le (by omega)
    rw [afterWrites_failingEnv k e d _ 0 [] (by omega), hlen]
    simp
  rw [general (failingEnv k e d) (0, [])]
  · rw [hstate k (le_refl k)]
    simp [failingEnv]
  · intro i text hi _
    rw [hstate i (by omega)]
    have hne : i ≠ k := by omega
    simp [failingEnv, hne]
  · rw [hstate k (le_refl k)]
    simp [failingEnv]

/-- C15 on the three stacks with a sink that fails on its second call after
delivering four bytes: the error comes back, two calls were made, and the sink
holds the first line and the four bytes. -/
theorem writeFolded_first_failure_witness :
    writeFolded (failingEnv 1 (ascii "disk full") 4) (0, []) threeStacks
      = ((2, ascii "init:3:i.go;main:1:m.go;run:7:r.go 5\nmain"),
         some (.external (ascii "disk full"))) :=
  ((writeFolded_first_failure threeStacks 1 (ascii "main:1:m.go 2\n") (ascii "disk full")
    (by decide)).2 4).trans (by decide)

/-! ## Reading a folded line back -/

/-- Reading the numeral of a number gives the number back. -/
theorem readDecimal_decimal (u : Nat) : readDecimal (decimal u) = some u := by
  obtain ⟨h1, h2, h3⟩ := decimal_spec u
  rw [readDecimal, if_pos ⟨h1, h2⟩, h3]

theorem splitLastSpace_none (s : GoString) (h : 32 ∉ s) : splitLastSpace s = none := by
  induction s with
  | nil => rfl
  | cons c s ih =>
    have hc : c ≠ 32 := fun e => h (e ▸ List.mem_cons_self c s)
    have hs : 32 ∉ s := fun hm => h (List.mem_cons_of_mem c hm)
    simp [splitLastSpace, ih hs, hc]

theorem splitLastSpace_append (key digits : GoString) (h : 32 ∉ digits) :
    splitLastSpace (key ++ 32 :: digits) = some (key, digits) := by
  induction key with
  | nil => simp [splitLastSpace, splitLastSpace_none digits h]
  | cons c key ih => simp [splitLastSpace, ih]

theorem parseFoldedLine_foldedLine (key : GoString) (count : Int) (h : 0 ≤ count) :
    parseFoldedLine (foldedLine key count) = some (key, count) := by
  have hline : foldedLine key count = (key ++ 32 :: decimal count.toNat) ++ [10] := by
    rw [foldedLine, fmtInt_nonneg count h]
  have hno : 32 ∉ decimal count.toNat := by
    intro hm
    have := (decimal_spec count.toNat).2.1 32 hm
    unfold isDigit at this
    omega
  rw [parseFoldedLine, hline, List.getLast?_concat, if_pos rfl, List.dropLast_concat,
    splitLastSpace_append key _ hno]
  simp only [readDecimal_decimal, Option.map_some', Int.ofNat_eq_coe, Int.toNat_of_nonneg h]

/-- C16: for every key and every non-negative count, the line `writeFolded`
emits for them is `key`, a space, the decimal count and a newline; splitting
it, without the newline, at its last space and reading the right part as a
base-10 numeral gives the key and the count back, so two such pairs with the
same line are equal. -/
theorem folded_line_round_trip (key : GoString) (count : Int) (h : 0 ≤ count) :
    (∀ {τ : Type} (env : Env GoString τ), env.Write = bufferWrite → ∀ w : GoString,
        writeFolded env w [(key, count)] = (w ++ foldedLine key count, none))
      ∧ foldedLine key count = key ++ ascii " " ++ decimal count.toNat ++ ascii "\n"
      ∧ parseFoldedLine (foldedLine key count) = some (key, count)
      ∧ ∀ (key1 : GoString) (count1 : Int), 0 ≤ count1 →
          foldedLine key count = foldedLine key1 count1 → key = key1 ∧ count = count1 := by
  refine ⟨?_, ?_, parseFoldedLine_foldedLine key count h, ?_⟩
  · intro τ env hW w
    have hk : sortedKeys [(key, count)] = [key] := rfl
    rw [writeFolded, hk, writeFoldedLoop_buffer env hW]
    simp [Aggregate.get]
  · rw [foldedLine, fmtInt_nonneg count h]
    simp [ascii]
  · intro key1 count1 h1 heq
    have e1 := parseFoldedLine_foldedLine key count h
    have e2 := parseFoldedLine_foldedLine key1 count1 h1
    rw [heq, e2] at e1
    simp only [Option.some.injEq, Prod.mk.injEq] at e1
    exact ⟨e1.1.symm, e1.2.symm⟩

/-- C16 on the line of scenario A, and on a key that itself contains a space. -/
theorem folded_line_round_trip_witness :
    parseFoldedLine (ascii "main;foo:10:bar.go 3\n") = some (ascii "main;foo:10:bar.go", 3)
      ∧ parseFoldedLine (foldedLine (ascii "a b 7") 12) = some (ascii "a b 7", 12) :=
  ⟨(folded_line_round_trip (ascii "main;foo:10:bar.go") 3 (by decide)).2.2.1,
   (folded_line_round_trip (ascii "a b 7") 12 (by decide)).2.2.1⟩

/-! ## One sample per key -/

/-- The sample of the `j`-th sorted key in the closed form of the profile: its
values, and its locations as the reversed segment of the `Location` table. -/
theorem profileOf_sample {σ τ : Type} (env : Env σ τ) (s : Aggregate) (hz : Int)
    (startTime endTime : τ) (j : Nat) (key : GoString) (hj : (sortedKeys s)[j]? = some key) :
    ∃ x, (profileOf env s hz startTime endTime).Sample[j]? = some x
      ∧ x.Value = [s.get key, wrap64 (Int.tdiv 1000000000 hz * s.get key)]
      ∧ x.Location.length = (Split key 59).length
      ∧ x.Location.map Location.frames = ((Split key 59).map (fun t => [frameOf t])).reverse
      ∧ x.Location = (((profileOf env s hz startTime endTime).Location.drop
          (tokensBefore s j)).take (Split key 59).length).reverse := by
  have hseg := locationsFrom_segment theMapping 1 1 (sortedKeys s) j key hj
  refine ⟨_, samplesFrom_getElem? theMapping s hz 1 1 (sortedKeys s) j key hj, ?_, ?_, ?_, ?_⟩
  · norm_num
  · simp only [List.length_reverse, locationsFrom_length]
  · simp only [List.map_reverse, locationsFrom_frames]
  · simp only [profileOf, tokens, tokensBefore, hseg]

/-- C17: every profile `toPprof` returns has exactly one sample per key of the
aggregate, in the order of the sorted keys: the `i`-th sample has as first
value the count of the `i`-th sorted key, and its locations are those made
from the frame tokens of that key; and `toPprof` returns a profile whenever
the frequency is not zero and the keys parse. -/
theorem samples_follow_sorted_keys {σ τ : Type} (env : Env σ τ) (s : Aggregate) (hz : Int)
    (startTime endTime : τ) :
    (hz ≠ 0 → KeysParse s → ∃ p, toPprof env s hz startTime endTime = .ok p)
      ∧ ∀ p, toPprof env s hz startTime endTime = .ok p →
          p.Sample.length = s.length
            ∧ List.Sorted strLE (sortedKeys s)
            ∧ (s.WF → List.Sorted (List.Lex (· < ·)) (sortedKeys s))
            ∧ ∀ i key, (sortedKeys s)[i]? = some key →
                ∃ x, p.Sample[i]? = some x
                  ∧ x.Value[0]? = some (s.get key)
                  ∧ x.Location.map Location.frames
                      = ((Split key 59).map (fun t => [frameOf t])).reverse
                  ∧ x.Location
                      = ((p.Location.drop (tokensBefore s i)).take
                          (Split key 59).length).reverse := by
  refine ⟨fun hhz hk => ⟨_, toPprof_ok env s hz startTime endTime hhz hk⟩, ?_⟩
  intro p hp
  obtain ⟨_, _, rfl⟩ := (toPprof_ok_iff env s hz startTime endTime p).1 hp
  refine ⟨?_, sortedKeys_sorted_le s, sortedKeys_sorted_lex s, ?_⟩
  · simp only [profileOf, samplesFrom_length, (sortedKeys_perm s).length_eq]
    simp [Aggregate.keys]
  · intro i key hi
    obtain ⟨x, hx, hv, _, hfr, hloc⟩ := profileOf_sample env s hz startTime endTime i key hi
    exact ⟨x, hx, by rw [hv]; rfl, hfr, hloc⟩

/-- C17 on the three stacks: three samples, with the counts 5, 2 and 4 of the
keys in ascending order. -/
theorem samples_follow_sorted_keys_witness :
    ∃ p, toPprof bufferEnv threeStacks 100 0 5 = .ok p ∧ p.Sample.length = 3
      ∧ ∃ x, p.Sample[0]? = some x ∧ x.Value[0]? = some 5 := by
  obtain ⟨hex, hall⟩ := samples_follow_sorted_keys bufferEnv threeStacks 100 0 5
  obtain ⟨p, hp⟩ := hex (by decide) (by decide)
  obtain ⟨hlen, _, _, hs⟩ := hall p hp
  obtain ⟨x, hx, hv, _⟩ := hs 0 (ascii "init:3:i.go;main:1:m.go;run:7:r.go") (by decide)
  exact ⟨p, hp, hlen, x, hx, hv⟩

/-! ## The fixed parts of the profile -/

theorem locationsFrom_mapping (m : Mapping) (fid lid : Nat) (ts : List GoString) :
    ∀ l ∈ locationsFrom m fid lid ts, l.Mapping = m := by
  induction ts generalizing fid lid with
  | nil => intro l hl; cases hl
  | cons t ts ih =>
    intro l hl
    rw [locationsFrom, List.mem_cons] at hl
    rcases hl with hl | hl
    · rw [hl]; rfl
    · exact ih _ _ l hl

/-- C18: every profile `toPprof` returns has the sample types
`("samples", "count")` and `("time", "nanoseconds")` in this order, the period
type `("wallclock", "nanoseconds")` and exactly one mapping, with ID 1, which
is the mapping of every location of the `Location` table; and `toPprof`
returns a profile whenever the frequency is not zero and the keys parse. -/
theorem profile_constants {σ τ : Type} (env : Env σ τ) (s : Aggregate) (hz : Int)
    (startTime endTime : τ) :
    (hz ≠ 0 → KeysParse s → ∃ p, toPprof env s hz startTime endTime = .ok p)
      ∧ ∀ p, toPprof env s hz startTime endTime = .ok p →
          p.SampleType = [{ Typ := ascii "samples", Unit := ascii "count" },
                          { Typ := ascii "time", Unit := ascii "nanoseconds" }]
            ∧ p.PeriodType = some { Typ := ascii "wallclock", Unit := ascii "nanoseconds" }
            ∧ p.Mapping = [theMapping] ∧ theMapping.ID = 1
            ∧ ∀ l ∈ p.Location, l.Mapping = theMapping := by
  refine ⟨fun hhz hk => ⟨_, toPprof_ok env s hz startTime endTime hhz hk⟩, ?_⟩
  intro p hp
  obtain ⟨_, _, rfl⟩ := (toPprof_ok_iff env s hz startTime endTime p).1 hp
  exact ⟨rfl, rfl, rfl, rfl, locationsFrom_mapping theMapping 1 1 (tokens s)⟩

/-- C18 on the three stacks and on scenario B with another frequency and time
window: the same sample types, period type and mapping. -/
theorem profile_constants_witness :
    ∃ p q, toPprof bufferEnv threeStacks 100 0 5 = .ok p
      ∧ toPprof bufferEnv scenarioB (-7) 3 11 = .ok q
      ∧ p.SampleType = q.SampleType ∧ p.PeriodType = q.PeriodType ∧ p.Mapping = q.Mapping := by
  obtain ⟨hex, hall⟩ := profile_constants bufferEnv threeStacks 100 0 5
  obtain ⟨hex2, hall2⟩ := profile_constants bufferEnv scenarioB (-7) 3 11
  obtain ⟨p, hp⟩ := hex (by decide) (by decide)
  obtain ⟨q, hq⟩ := hex2 (by decide) (by decide)
  obtain ⟨h1, h2, h3, _⟩ := hall p hp
  obtain ⟨k1, k2, k3, _⟩ := hall2 q hq
  exact ⟨p, q, hp, hq, h1.trans k1.symm, h2.trans k2.symm, h3.trans k3.symm⟩

/-! ## Totality of `toPprof` -/

theorem cut_eq_none (s : GoString) (sep : Nat) (h : sep ∉ s) : cut s sep = none := by
  induction s with
  | nil => rfl
  | cons c s ih =>
    have hc : c ≠ sep := fun e => h (e ▸ List.mem_cons_self c s)
    have hs : sep ∉ s := fun hm => h (List.mem_cons_of_mem c hm)
    simp [cut, hc, ih hs]

theorem cut_of_mem (s : GoString) (sep : Nat) (h : sep ∈ s) :
    ∃ a b, cut s sep = some (a, b) ∧ s = a ++ sep :: b ∧ sep ∉ a := by
  induction s with
  | nil => cases h
  | cons c s ih =>
    by_cases hc : c = sep
    · subst hc
      exact ⟨[], s, by simp [cut], rfl, by simp⟩
    · have hs : sep ∈ s := by
        rcases List.mem_cons.1 h with h1 | h1
        · exact absurd h1.symm hc
        · exact h1
      obtain ⟨a, b, h1, h2, h3⟩ := ih hs
      refine ⟨c :: a, b, by simp [cut, hc, h1], by rw [h2]; rfl, ?_⟩
      intro hm
      rcases List.mem_cons.1 hm with h4 | h4
      · exact hc h4.symm
      · exact h3 h4

/-- A frame token has the three parts the loop body indexes exactly when it
contains at least two colons. -/
theorem Parses_iff_count (t : GoString) : Parses t ↔ 2 ≤ t.count 58 := by
  unfold Parses
  by_cases h : 58 ∈ t
  · obtain ⟨a, b, h1, h2, h3⟩ := cut_of_mem t 58 h
    have ha : a.count 58 = 0 := List.count_eq_zero.2 h3
    by_cases hb : 58 ∈ b
    · obtain ⟨a1, b1, k1, k2, _⟩ := cut_of_mem b 58 hb
      have hlen : (SplitN t 58 3).length = 3 := by simp [SplitN, h1, k1]
      have hcount : 2 ≤ t.count 58 := by
        rw [h2, k2]
        simp only [List.count_append, List.count_cons_self]
        omega
      exact ⟨fun _ => hcount, fun _ => hlen⟩
    · have hlen : (SplitN t 58 3).length = 2 := by simp [SplitN, h1, cut_eq_none b 58 hb]
      have hcb : b.count 58 = 0 := List.count_eq_zero.2 hb
      have hcount : t.count 58 = 1 := by
        rw [h2]
        simp only [List.count_append, List.count_cons_self, ha, hcb]
      constructor <;> intro h5 <;> omega
  · have hlen : (SplitN t 58 3).length = 1 := by simp [SplitN, cut_eq_none t 58 h]
    have hcount : t.count 58 = 0 := List.count_eq_zero.2 h
    constructor <;> intro h5 <;> omega

theorem index_error (a : List GoString) (i : Nat) (e : Panic) (h : index a i = .error e) :
    e = .indexOutOfRange i a.length ∧ a.length ≤ i := by
  unfold index at h
  rcases hg : a.get? i with _ | x
  · rw [hg] at h
    simp only [Except.error.injEq] at h
    refine ⟨h.symm, ?_⟩
    by_contra hlt
    rw [List.get?_eq_get (by omega)] at hg
    cases hg
  · rw [hg] at h; cases h

theorem frameStep_panics (m : Mapping) (t : GoString) (b : Builder) (sample : Sample)
    (e : Panic) (h : frameStep m t b sample = .error e) :
    ∃ i n, n ≤ i ∧ e = .indexOutOfRange i n := by
  unfold frameStep at h
  simp only [] at h
  rcases h1 : index (SplitN t 58 3) 1 with e1 | x1
  · rw [h1] at h
    simp only [Except.error.injEq] at h
    subst h
    exact ⟨1, _, (index_error _ _ _ h1).2, (index_error _ _ _ h1).1⟩
  · rw [h1] at h
    simp only [] at h
    rcases h0 : index (SplitN t 58 3) 0 with e0 | x0
    · rw [h0] at h
      simp only [Except.error.injEq] at h
      subst h
      exact ⟨0, _, (index_error _ _ _ h0).2, (index_error _ _ _ h0).1⟩
    · rw [h0] at h
      simp only [] at h
      rcases h2 : index (SplitN t 58 3) 2 with e2 | x2
      · rw [h2] at h
        simp only [Except.error.injEq] at h
        subst h
        exact ⟨2, _, (index_error _ _ _ h2).2, (index_error _ _ _ h2).1⟩
      · rw [h2] at h; cases h

theorem framesLoop_panics (m : Mapping) (ts : List GoString) (b : Builder) (sample : Sample)
    (e : Panic) (h : framesLoop m ts b sample = .error e) :
    ∃ i n, n ≤ i ∧ e = .indexOutOfRange i n := by
  induction ts generalizing b sample with
  | nil => rw [framesLoop] at h; cases h
  | cons t ts ih =>
    rw [framesLoop] at h
    rcases h1 : frameStep m t b sample with e1 | ⟨b1, sample1⟩
    · rw [h1] at h
      simp only [Except.error.injEq] at h
      subst h
      exact frameStep_panics m t b sample _ h1
    · rw [h1] at h
      exact ih b1 sample1 h

theorem stacksLoop_panics (m : Mapping) (s : Aggregate) (hz : Int) (ks : List GoString)
    (b : Builder) (e : Panic) (h : stacksLoop m s hz ks b = .error e) :
    ∃ i n, n ≤ i ∧ e = .indexOutOfRange i n := by
  induction ks generalizing b with
  | nil => rw [stacksLoop] at h; cases h
  | cons k ks ih =>
    rw [stacksLoop] at h
    simp only [] at h
    rcases h1 : framesLoop m (Split k 59) b
      { Value := [s.get k, wrap64 (Int.tdiv (1000 * 1000 * 1000) hz * s.get k)], Location := [] }
      with e1 | ⟨b1, sample1⟩
    · rw [h1] at h
      simp only [Except.error.injEq] at h
      subst h
      exact framesLoop_panics m _ b _ _ h1
    · rw [h1] at h
      exact ih _ h

theorem toPprof_panics {σ τ : Type} (env : Env σ τ) (s : Aggregate) (hz : Int)
    (startTime endTime : τ) (e : Panic) (h : toPprof env s hz startTime endTime = .error e) :
    e = .divideByZero ∨ ∃ i n, n ≤ i ∧ e = .indexOutOfRange i n := by
  unfold toPprof at h
  by_cases h0 : hz = 0
  · rw [if_pos h0] at h
    simp only [Except.error.injEq] at h
    exact Or.inl h.symm
  · rw [if_neg h0] at h
    rcases h1 : stacksLoop theMapping s hz (sortedKeys s)
      { functionID := 1, locationID := 1, p := header env hz startTime endTime } with e1 | r
    · rw [h1] at h
      simp only [Except.error.injEq] at h
      subst h
      exact Or.inr (stacksLoop_panics _ _ _ _ _ _ h1)
    · rw [h1] at h; cases h

/-- C19: `toPprof` returns a profile exactly when the frequency is not zero and
every frame token of every key contains at least two colons; otherwise it
panics, with a division by zero or an index out of range.  A zero frequency
panics for every aggregate, the empty one included, and a frame token with
fewer than two colons panics for every frequency. -/
theorem toPprof_total_iff {σ τ : Type} (env : Env σ τ) (s : Aggregate) (hz : Int)
    (startTime endTime : τ) :
    ((∃ p, toPprof env s hz startTime endTime = .ok p)
        ↔ hz ≠ 0 ∧ ∀ k ∈ s.keys, ∀ t ∈ Split k 59, 2 ≤ t.count 58)
      ∧ (∀ e, toPprof env s hz startTime endTime = .error e →
          e = .divideByZero ∨ ∃ i n, n ≤ i ∧ e = .indexOutOfRange i n)
      ∧ (hz = 0 → toPprof env s hz startTime endTime = .error .divideByZero)
      ∧ (toPprof env [] 0 startTime endTime = .error .divideByZero)
      ∧ ((∃ k ∈ s.keys, ∃ t ∈ Split k 59, t.count 58 < 2) →
          ∃ e, toPprof env s hz startTime endTime = .error e) := by
  have hiff : (∃ p, toPprof env s hz startTime endTime = .ok p)
      ↔ hz ≠ 0 ∧ ∀ k ∈ s.keys, ∀ t ∈ Split k 59, 2 ≤ t.count 58 := by
    constructor
    · rintro ⟨p, hp⟩
      obtain ⟨hhz, hk, _⟩ := (toPprof_ok_iff env s hz startTime endTime p).1 hp
      exact ⟨hhz, fun k hks t ht => (Parses_iff_count t).1 (hk k hks t ht)⟩
    · rintro ⟨hhz, hk⟩
      exact ⟨_, toPprof_ok env s hz startTime endTime hhz
        (fun k hks t ht => (Parses_iff_count t).2 (hk k hks t ht))⟩
  refine ⟨hiff, ?_, ?_, ?_, ?_⟩
  · intro e he
    exact toPprof_panics env s hz startTime endTime e he
  · intro h0
    rw [toPprof, if_pos h0]
  · rfl
  · rintro ⟨k, hks, t, ht, hlt⟩
    rcases hres : toPprof env s hz startTime endTime with e | p
    · exact ⟨e, rfl⟩
    · have := (hiff.1 ⟨p, hres⟩).2 k hks t ht
      omega

/-- C19 on four inputs: the three stacks at 100 Hz give a profile, the empty
aggregate at 0 Hz divides by zero, and the frame tokens `main` and `foo:10`
make the index expressions `fl[1]` and `fl[2]` panic at 100 Hz. -/
theorem toPprof_total_iff_witness :
    (∃ p, toPprof bufferEnv threeStacks 100 0 5 = .ok p)
      ∧ toPprof bufferEnv [] 0 0 5 = .error .divideByZero
      ∧ toPprof bufferEnv bareToken 100 0 5 = .error (.indexOutOfRange 1 1)
      ∧ toPprof bufferEnv oneColon 100 0 5 = .error (.indexOutOfRange 2 2) :=
  ⟨(toPprof_total_iff bufferEnv threeStacks 100 0 5).1.2 ⟨by decide, by decide⟩,
   (toPprof_total_iff bufferEnv [] 0 0 5).2.2.1 rfl, rfl, rfl⟩

/-! ## The samples partition the `Location` table -/

theorem samplesFrom_flatten (m : Mapping) (s : Aggregate) (hz : Int) (fid lid : Nat)
    (ks : List GoString) :
    ((samplesFrom m s hz fid lid ks).map (fun x => x.Location.reverse)).flatten
      = locationsFrom m fid lid (ks.flatMap (fun k => Split k 59)) := by
  induction ks generalizing fid lid with
  | nil => rfl
  | cons k ks ih =>
    simp only [samplesFrom, List.map_cons, List.flatten_cons, List.reverse_reverse,
      List.flatMap_cons, locationsFrom_append, ih]

theorem locationsFrom_ids (m : Mapping) (fid lid : Nat) (ts : List GoString) :
    (locationsFrom m fid lid ts).map (fun l => l.ID)
      = (List.range ts.length).map (fun k => advance lid k) := by
  induction ts generalizing fid lid with
  | nil => rfl
  | cons t ts ih =>
    rw [locationsFrom, List.map_cons, ih, List.length_cons, List.range_succ_eq_map,
      List.map_cons, List.map_map]
    rfl

theorem locationsFrom_ids_nodup (m : Mapping) (ts : List GoString) (h : ts.length < 2 ^ 64) :
    ((locationsFrom m 1 1 ts).map (fun l => l.ID)).Nodup := by
  rw [locationsFrom_ids]
  have hcongr : (List.range ts.length).map (fun k => advance 1 k)
      = (List.range ts.length).map (fun k => 1 + k) := by
    apply List.map_congr_left
    intro k hk
    rw [List.mem_range] at hk
    exact advance_eq 1 k (by omega)
  rw [hcongr]
  exact List.Nodup.map (fun a b hab => by simpa using hab) (List.nodup_range _)

theorem locationsFrom_id_at (m : Mapping) (ts : List GoString) (h : ts.length < 2 ^ 64)
    (k : Nat) (l : Location) (hl : (locationsFrom m 1 1 ts)[k]? = some l) : l.ID = k + 1 := by
  rw [locationsFrom_getElem?] at hl
  rcases ht : ts[k]? with _ | t
  · simp [ht] at hl
  · have hlt : k < ts.length := (List.getElem?_eq_some.1 ht).1
    simp only [ht, Option.map_some', Option.some.injEq] at hl
    rw [← hl, locationOf, advance_eq 1 k (by omega)]
    exact Nat.add_comm 1 k

/-- C20: in every profile `toPprof` returns, the reversed location lists of the
samples, one after the other in the order of the samples, are exactly the
`Location` table; and when there are fewer than `2 ^ 64` frame tokens, the IDs
go down by one from each location of a sample to the next, and no ID occurs
twice among the locations of all samples, so no location is shared; and
`toPprof` returns a profile whenever the frequency is not zero and the keys
parse. -/
theorem samples_partition_locations {σ τ : Type} (env : Env σ τ) (s : Aggregate) (hz : Int)
    (startTime endTime : τ) :
    (hz ≠ 0 → KeysParse s → ∃ p, toPprof env s hz startTime endTime = .ok p)
      ∧ ∀ p, toPprof env s hz startTime endTime = .ok p →
          (p.Sample.map (fun x => x.Location.reverse)).flatten = p.Location
            ∧ (tokenCount s < 2 ^ 64 →
                (∀ x ∈ p.Sample, ∀ i a b, x.Location[i]? = some a →
                    x.Location[i + 1]? = some b → a.ID = b.ID + 1)
                  ∧ ((p.Sample.flatMap (fun x => x.Location)).map (fun l => l.ID)).Nodup) := by
  refine ⟨fun hhz hk => ⟨_, toPprof_ok env s hz startTime endTime hhz hk⟩, ?_⟩
  intro p hp
  obtain ⟨_, _, rfl⟩ := (toPprof_ok_iff env s hz startTime endTime p).1 hp
  have hpart : ((profileOf env s hz startTime endTime).Sample.map
      (fun x => x.Location.reverse)).flatten = (profileOf env s hz startTime endTime).Location :=
    samplesFrom_flatten theMapping s hz 1 1 (sortedKeys s)
  refine ⟨hpart, ?_⟩
  intro hn
  have hlen : (tokens s).length < 2 ^ 64 := by rw [tokens_length]; exact hn
  constructor
  · intro x hx i a b ha hb
    obtain ⟨j, hj⟩ := List.mem_iff_getElem?.1 hx
    have hjlt : j < (sortedKeys s).length := by
      have := (List.getElem?_eq_some.1 hj).1
      simpa only [profileOf, samplesFrom_length] using this
    obtain ⟨x1, hx1, _, hxlen, _, hxloc⟩ :=
      profileOf_sample env s hz startTime endTime j (sortedKeys s)[j]
        (List.getElem?_eq_getElem hjlt)
    rw [hj] at hx1
    cases hx1
    have hi : i + 1 < x.Location.length := (List.getElem?_eq_some.1 hb).1
    rw [hxlen] at hi
    have hseglen : (((profileOf env s hz startTime endTime).Location.drop
        (tokensBefore s j)).take (Split (sortedKeys s)[j] 59).length).length
        = (Split (sortedKeys s)[j] 59).length := by
      have := congrArg List.length hxloc
      rw [List.length_reverse] at this
      rw [← this, hxlen]
    rw [hxloc, List.getElem?_reverse (by rw [hseglen]; omega), hseglen, List.getElem?_take,
      if_pos (by omega), List.getElem?_drop] at ha hb
    have ida := locationsFrom_id_at theMapping (tokens s) hlen _ a ha
    have idb := locationsFrom_id_at theMapping (tokens s) hlen _ b hb
    rw [ida, idb]
    omega
  · have hperm : ((profileOf env s hz startTime endTime).Sample.flatMap (fun x => x.Location)).Perm
        (profileOf env s hz startTime endTime).Location := by
      rw [← hpart, ← List.flatMap_def]
      exact List.Perm.flatMap_left _ (fun x _ => (List.reverse_perm x.Location).symm)
    exact ((hperm.map (fun l => l.ID)).nodup_iff).2
      (locationsFrom_ids_nodup theMapping (tokens s) hlen)

/-- C20 on the three stacks: the location IDs of the three samples are
3, 2, 1, then 4, then 6, 5, and reversed and put together they are the table
1 to 6. -/
theorem samples_partition_locations_witness :
    ∃ p, toPprof bufferEnv threeStacks 100 0 5 = .ok p
      ∧ (p.Sample.map (fun x => x.Location.reverse)).flatten = p.Location
      ∧ p.Sample.map (fun x => x.Location.map (fun l => l.ID)) = [[3, 2, 1], [4], [6, 5]] := by
  obtain ⟨hex, hall⟩ := samples_partition_locations bufferEnv threeStacks 100 0 5
  obtain ⟨p, hp⟩ := hex (by decide) (by decide)
  refine ⟨p, hp, (hall p hp).1, ?_⟩
  obtain ⟨_, _, rfl⟩ := (toPprof_ok_iff bufferEnv threeStacks 100 0 5 p).1 hp
  rfl

end Fgprof
